import Mathlib

/-!
# Object registry and method dispatcher of `mydbus` (handler.go)

A shallow embedding of `src/mydbus/handler.go`.

Modelling conventions.

* Go `string` / `dbus.ObjectPath` values are Lean `String`s.  The only byte-level
  operations of the source cut a path at a `"/"`, which is a single byte that
  never occurs inside a multi-byte UTF-8 sequence, so working on characters
  gives the same slices.  `len(path) > 0` only tests emptiness.
* A Go `map[string]T` is an `AList` (association list with distinct keys).  Go
  leaves the order of `range` unspecified.  Loops whose outcome does not depend
  on the order (they write distinct keys) run over the entries as listed; code
  whose outcome does depend on it takes the order as an explicit argument.
* Pointers to nodes (`*exportedObj`) are modelled by value.  `export` is the
  only code of the package that stores nodes and it allocates a new node per
  path, so no node is shared between two paths.  What `LookupObject` hands back records whether
  it is the stored node or a node allocated by the call (`ServerObject`).
* A run-time panic is an explicit `Fault` result.
* Locks are not modelled: every operation is taken as one atomic step.
-/

namespace Mydbus

/-! ## Values, errors, faults -/

/-- Run-time faults (Go panics) the embedded code can raise.  `fuel` is not a Go
panic: it marks an exhausted recursion budget of the model, and
`subtreeLoop_fuel` shows `LookupObject` never produces it. -/
inductive Fault where
  | sliceBounds
  | reflectElem
  | reflectInterface
  | handler
  | fuel
  deriving DecidableEq, Repr

/-- Loosely typed Go values (`interface{}`): the untyped nil interface, a few
scalars, a typed nil pointer and a pointer to a value. -/
inductive GoValue where
  | nil
  | bool (b : Bool)
  | int (i : Int)
  | str (s : String)
  | nilPtr
  | ptr (pointee : GoValue)
  deriving DecidableEq, Repr

/-- The payload of a typed bus error (`dbus.Error`). -/
structure DBusError where
  Name : String
  Body : List GoValue
  deriving DecidableEq, Repr

/-- A Go `error` interface value: the nil interface, a `*dbus.Error` (whose
pointer may itself be nil: `busError none`), or any other error. -/
inductive GoError where
  | nil
  | busError (e : Option DBusError)
  | other (msg : String)
  deriving DecidableEq, Repr

/-- Go types that occur in the signatures of exported functions. -/
inductive GoType where
  | bool
  | int
  | string
  | message
  | busErrorPtr
  | error
  | emptyInterface
  deriving DecidableEq, Repr

/-- A `reflect.Value` as far as the handler looks at it: the zero Value, a
function with its parameter and result types, or a value that is no function. -/
inductive ReflectValue where
  | invalid
  | func (ins outs : List GoType)
  | nonFunc
  deriving DecidableEq, Repr

/-- The source's `type HandlerFunc func(args []interface{}) ([]interface{}, error)`.
A handler is application code: it may return or fault. -/
abbrev HandlerFunc := List GoValue → Except Fault (List GoValue × GoError)

/-- The source's `type MethodItem struct { Value reflect.Value; Fn HandlerFunc }`. -/
structure MethodItem where
  Value : ReflectValue
  Fn : HandlerFunc

/-- The source's `type exportedMethod struct { value reflect.Value; fn HandlerFunc }`. -/
structure exportedMethod where
  value : ReflectValue
  fn : HandlerFunc

/-- A Go `map[string]T`. -/
abbrev GoMap (T : Type) := AList (fun _ : String => T)

/-- The source's `type exportedIntf struct`: the method table and the subtree flag. -/
structure exportedIntf where
  methods : GoMap exportedMethod
  includeSubtree : Bool

/-- The source's `type exportedObj struct` (the lock is not modelled). -/
structure exportedObj where
  interfaces : GoMap exportedIntf

/-- The source's `type Handler struct` (the lock is not modelled). -/
structure Handler where
  objects : GoMap exportedObj
  defaultIntf : GoMap exportedIntf

/-- A `dbus.Interface` as returned by `exportedObj.LookupInterface`: the node
itself (for the empty name) or one interface table. -/
inductive Interface where
  | obj (o : exportedObj)
  | intf (i : exportedIntf)

/-- A `dbus.ServerObject` as returned by `LookupObject`: `registered` is the
pointer stored in `h.objects`, `synthesized` the pointer to the node the call
allocated with `newExportedObject()`; the two are never the same pointer. -/
inductive ServerObject where
  | registered (o : exportedObj)
  | synthesized (o : exportedObj)

/-- The node behind a `ServerObject`. -/
def ServerObject.node : ServerObject → exportedObj
  | .registered o => o
  | .synthesized o => o

/-! ## Method bindings -/

/-- The expression `reflect.ValueOf(a).Elem().Interface()` of `Call`: `Elem`
panics unless `a` is a pointer, and `Interface` panics on the zero Value that
`Elem` gives for a nil pointer. -/
def elemInterface : GoValue → Except Fault GoValue
  | .ptr v => .ok v
  | .nilPtr => .error .reflectInterface
  | _ => .error .reflectElem

/-- The first loop of `Call`: every argument is unwrapped one level, left to right. -/
def unwrapArgs : List GoValue → Except Fault (List GoValue)
  | [] => .ok []
  | a :: rest =>
    match elemInterface a with
    | .error f => .error f
    | .ok v =>
      match unwrapArgs rest with
      | .error f => .error f
      | .ok vs => .ok (v :: vs)

/-- The error normalisation at the end of `Call`:
`if busErr, ok := err.(*dbus.Error); ok { if busErr == nil { err = nil } }`. -/
def normalizeError : GoError → GoError
  | .busError none => .nil
  | e => e

/-- The source's `exportedMethod.Call`. -/
def exportedMethod.Call (m : exportedMethod) (args : List GoValue) :
    Except Fault (List GoValue × GoError) :=
  match unwrapArgs args with
  | .error f => .error f
  | .ok newArgs =>
    match m.fn newArgs with
    | .error f => .error f
    | .ok (results, err) => .ok (results, normalizeError err)

/-- The source's `exportedMethod.NumArguments`: `m.value.Type().NumIn()`. -/
def exportedMethod.NumArguments (m : exportedMethod) : Except Fault Nat :=
  match m.value with
  | .func ins _ => .ok ins.length
  | _ => .error .reflectElem

/-- The source's `exportedMethod.NumReturns`: `m.value.Type().NumOut()`. -/
def exportedMethod.NumReturns (m : exportedMethod) : Except Fault Nat :=
  match m.value with
  | .func _ outs => .ok outs.length
  | _ => .error .reflectElem

/-! ## Interface tables and nodes -/

/-- The source's `newExportedIntf`. -/
def newExportedIntf (methods : GoMap exportedMethod) (includeSubtree : Bool) : exportedIntf :=
  { methods := methods, includeSubtree := includeSubtree }

/-- The source's `exportedIntf.LookupMethod`: `none` stands for `exists = false`. -/
def exportedIntf.LookupMethod (intf : exportedIntf) (name : String) : Option exportedMethod :=
  intf.methods.lookup name

/-- The source's `exportedIntf.isFallbackInterface`. -/
def exportedIntf.isFallbackInterface (intf : exportedIntf) : Bool :=
  intf.includeSubtree

/-- The source's `newExportedObject`. -/
def newExportedObject : exportedObj :=
  { interfaces := ∅ }

/-- The source's `exportedObj.LookupInterface`: `none` stands for `exists = false`. -/
def exportedObj.LookupInterface (obj : exportedObj) (name : String) : Option Interface :=
  if name = "" then some (.obj obj)
  else (obj.interfaces.lookup name).map Interface.intf

/-- The source's `exportedObj.AddInterface`. -/
def exportedObj.AddInterface (obj : exportedObj) (name : String) (iface : exportedIntf) :
    exportedObj :=
  { interfaces := obj.interfaces.insert name iface }

/-- The source's `exportedObj.DeleteInterface`. -/
def exportedObj.DeleteInterface (obj : exportedObj) (name : String) : exportedObj :=
  { interfaces := obj.interfaces.erase name }

/-- The source's `exportedObj.LookupMethod`: the interfaces are visited in the
order `order` (a listing of the node's interface names, which Go picks freely)
and the first table that has the method answers. -/
def exportedObj.LookupMethod (obj : exportedObj) (order : List String) (name : String) :
    Option exportedMethod :=
  match order with
  | [] => none
  | k :: rest =>
    match (obj.interfaces.lookup k).bind (fun intf => intf.LookupMethod name) with
    | some method => some method
    | none => exportedObj.LookupMethod obj rest name

/-- The source's `exportedObj.isFallbackInterface`. -/
def exportedObj.isFallbackInterface (_obj : exportedObj) : Bool :=
  false

/-- Method lookup through a `dbus.Interface` value: dynamic dispatch to
`exportedObj.LookupMethod` or `exportedIntf.LookupMethod`. -/
def Interface.LookupMethod (i : Interface) (order : List String) (name : String) :
    Option exportedMethod :=
  match i with
  | .obj o => o.LookupMethod order name
  | .intf t => t.LookupMethod name

/-! ## Paths -/

/-- The source's `strings.Split(s, "/")` on the characters of `s`. -/
def splitSlash : List Char → List (List Char)
  | [] => [[]]
  | c :: cs =>
    if c = '/' then [] :: splitSlash cs
    else
      match splitSlash cs with
      | [] => [[c]]
      | seg :: segs => (c :: seg) :: segs

/-- Modelled from the spec: `dbus.ObjectPath.IsValid`, a method of the `dbus`
package of this repository that is not among the source files.  The spec's
words: a path "must validate against the bus-path grammar (non-empty segments,
no trailing slash except root `/`)".  The spec names no character set for the
segments, so none is checked here. -/
def IsValid (path : String) : Bool :=
  match path.data with
  | [] => false
  | c :: rest => c == '/' && (rest.isEmpty || (splitSlash rest).all (fun seg => !seg.isEmpty))

/-- The characters before the last `'/'`; `none` when there is no `'/'`. -/
def cutList : List Char → Option (List Char)
  | [] => none
  | c :: cs =>
    match cutList cs with
    | some p => some (c :: p)
    | none => if c = '/' then some [] else none

/-- The expression `path[:strings.LastIndex(string(path), "/")]` of
`LookupObject`: without a `"/"` the index is `-1` and the slice expression
panics. -/
def cutAtLastSlash (path : String) : Except Fault String :=
  match cutList path.data with
  | some p => .ok ⟨p⟩
  | none => .error .sliceBounds

/-- The prefix `introspectPath` compares registered paths with:
`p := string(path); if p != "/" { p += "/" }`. -/
def childPrefix (path : String) : String :=
  if path ≠ "/" then path ++ "/" else path

/-- Path `d` lies strictly below path `p`: it extends `p` past a segment
boundary, the relation `introspectPath` uses for the children of `p`. -/
def StrictDescendant (d p : String) : Prop :=
  (childPrefix p).data <+: d.data ∧ d ≠ p

instance (d p : String) : Decidable (StrictDescendant d p) := by
  unfold StrictDescendant
  exact inferInstance

/-! ## The handler -/

/-- The name under which `newHandler` installs the built-in interface. -/
def introspectableName : String := "org.freedesktop.DBus.Introspectable"

/-- The source's `newIntrospectIntf`.  The `value` of the method is the
reflected `func(msg dbus.Message) (string, *dbus.Error)`, which the handler
only inspects for its signature; `fn`, the function `Call` runs, is the
source's stub `return nil, nil`.  The handler argument of the source is used
by the reflected function only and is therefore not a parameter here. -/
def newIntrospectIntf : exportedIntf :=
  let methods : GoMap exportedMethod :=
    (∅ : GoMap exportedMethod).insert "Introspect"
      { value := .func [.message] [.string, .busErrorPtr]
        fn := fun _ => .ok ([], .nil) }
  newExportedIntf methods true

/-- The source's `newHandler`. -/
def newHandler : Handler :=
  { objects := ∅
    defaultIntf := (∅ : GoMap exportedIntf).insert introspectableName newIntrospectIntf }

/-- The source's `Handler.PathExists`. -/
def Handler.PathExists (h : Handler) (path : String) : Bool :=
  (h.objects.lookup path).isSome

/-- The first loop of `introspectPath`: the set of first segments, after the
prefix `p`, of the registered paths that start with `p`. -/
def subpaths (h : Handler) (path : String) : GoMap Unit :=
  h.objects.keys.foldl
    (fun subpath obj =>
      let p := childPrefix path
      if p.data.isPrefixOf obj.data then
        let node_name : String := ⟨(splitSlash (obj.data.drop p.length)).headD []⟩
        subpath.insert node_name ()
      else subpath)
    ∅

/-- The source's `Handler.introspectPath`.  `order` is the order in which Go
ranges over the set of child names. -/
def Handler.introspectPath (h : Handler) (order : List String → List String)
    (path : String) : String :=
  let xml := "<node>"
  let xml := (order (subpaths h path).keys).foldl
    (fun xml s => xml ++ ("\n\t<node name=\"" ++ s ++ "\"/>")) xml
  xml ++ "\n</node>"

/-- The inner loop of `LookupObject`: the interfaces of `object` that registered
for the subtree are copied into `into`. -/
def copyFallback (object : exportedObj) (into : GoMap exportedIntf) : GoMap exportedIntf :=
  object.interfaces.entries.foldl
    (fun acc e => if e.2.isFallbackInterface then acc.insert e.1 e.2 else acc)
    into

/-- The loop `for len(path) > 0` of `LookupObject`, with a recursion budget:
it returns the interfaces of the synthesized node before the defaults are
merged in. -/
def subtreeLoop (objects : GoMap exportedObj) : Nat → String → Except Fault (GoMap exportedIntf)
  | 0, path =>
    if path.length > 0 then
      match objects.lookup path with
      | some object => .ok (copyFallback object ∅)
      | none => .error .fuel
    else .ok ∅
  | fuel + 1, path =>
    if path.length > 0 then
      match objects.lookup path with
      | some object => .ok (copyFallback object ∅)
      | none =>
        match cutAtLastSlash path with
        | .error f => .error f
        | .ok shorter => subtreeLoop objects fuel shorter
    else .ok ∅

/-- The last loop of `LookupObject`: every default interface whose name is not
yet present is added. -/
def mergeDefaults (defaultIntf : GoMap exportedIntf) (into : GoMap exportedIntf) :
    GoMap exportedIntf :=
  defaultIntf.entries.foldl
    (fun acc e => if (acc.lookup e.1).isSome then acc else acc.insert e.1 e.2)
    into

/-- The source's `Handler.LookupObject`. -/
def Handler.LookupObject (h : Handler) (path : String) : Except Fault (ServerObject × Bool) :=
  match h.objects.lookup path with
  | some object => .ok (.registered object, true)
  | none =>
    match cutAtLastSlash path with
    | .error f => .error f
    | .ok path =>
      match subtreeLoop h.objects path.length path with
      | .error f => .error f
      | .ok interfaces =>
        .ok (.synthesized { interfaces := mergeDefaults h.defaultIntf interfaces }, true)

/-- The source's `Handler.AddObject`. -/
def Handler.AddObject (h : Handler) (path : String) (object : exportedObj) : Handler :=
  { h with objects := h.objects.insert path object }

/-- The loop of `export` that turns the supplied items into method bindings. -/
def exportMethods (methods : GoMap MethodItem) : GoMap exportedMethod :=
  methods.entries.foldl
    (fun acc e => acc.insert e.1 { value := e.2.Value, fn := e.2.Fn })
    ∅

/-- The source's `Handler.export`.  `methods = none` is the nil map.  The result
is the handler after the call and the returned error.  The node is updated
through the pointer `obj := h.objects[path]`; by value, the updated node is
stored back under `path`.  At that point `path` is a key of `h.objects` (the
step before adds it when it is missing), so the default of `getD` is never
taken (`export_valid`). -/
def Handler.export (h : Handler) (methods : Option (GoMap MethodItem)) (path : String)
    (iface : String) : Handler × GoError :=
  if !IsValid path then
    (h, .other ("dbus: Invalid path name: \"" ++ path ++ "\""))
  else
    match methods with
    | none => (h, .nil)
    | some methods =>
      let h := if !h.PathExists path then h.AddObject path newExportedObject else h
      let exportedMethods := exportMethods methods
      let obj := (h.objects.lookup path).getD newExportedObject
      (h.AddObject path (obj.AddInterface iface (newExportedIntf exportedMethods false)), .nil)

/-- The source's `Handler.Export`. -/
def Handler.Export (h : Handler) (methods : Option (GoMap MethodItem)) (path : String)
    (iface : String) : Handler × GoError :=
  h.export methods path iface

/-- The source's `Handler.DeleteObject`. -/
def Handler.DeleteObject (h : Handler) (path : String) : Handler :=
  { h with objects := h.objects.erase path }

/-- The registry states reachable from `newHandler` by `Export` and
`DeleteObject` calls. -/
inductive Reachable : Handler → Prop where
  | init : Reachable newHandler
  | exported (h : Handler) (methods : Option (GoMap MethodItem)) (path iface : String) :
      Reachable h → Reachable (h.Export methods path iface).1
  | deleted (h : Handler) (path : String) : Reachable h → Reachable (h.DeleteObject path)

/-- How a call addressed to `(path, iface, name)` is resolved: `LookupObject`,
then `LookupInterface` on the node, then `LookupMethod` on what that returns.
`order` is the order in which the node's interfaces are visited when the
interface name is empty. -/
def Handler.resolveMethod (h : Handler) (order : List String) (path iface name : String) :
    Except Fault (Option exportedMethod) :=
  match h.LookupObject path with
  | .error f => .error f
  | .ok (object, _) =>
    .ok ((object.node.LookupInterface iface).bind (fun i => i.LookupMethod order name))

/-- The invariant of the reachable registry states: the default table set is the
one `newHandler` installed, and no stored interface table has subtree scope. -/
def Invariant (h : Handler) : Prop :=
  h.defaultIntf = newHandler.defaultIntf ∧
    ∀ p o n t, h.objects.lookup p = some o → o.interfaces.lookup n = some t →
      t.includeSubtree = false

/-! ## Example states and handlers -/

/-- An interface table with no methods that registered for the subtree. -/
def subtreeTable : exportedIntf := newExportedIntf ∅ true

/-- A registry whose root `/` holds `com.example.I` with subtree scope. -/
def rootSubtreeState : Handler :=
  { objects := (∅ : GoMap exportedObj).insert "/"
      { interfaces := (∅ : GoMap exportedIntf).insert "com.example.I" subtreeTable }
    defaultIntf := newHandler.defaultIntf }

/-- A registry in which `/a` holds `com.example.I` with subtree scope. -/
def subtreeState : Handler :=
  { objects := (∅ : GoMap exportedObj).insert "/a"
      { interfaces := (∅ : GoMap exportedIntf).insert "com.example.I" subtreeTable }
    defaultIntf := newHandler.defaultIntf }

/-- The registry `subtreeState` with `/a/b` registered as well, holding only
`com.example.J`, without subtree scope. -/
def nestedState : Handler :=
  { objects := subtreeState.objects.insert "/a/b"
      { interfaces := (∅ : GoMap exportedIntf).insert "com.example.J" (newExportedIntf ∅ false) }
    defaultIntf := newHandler.defaultIntf }

/-- A handler function that answers every call with the string `tag`. -/
def constHandler (tag : String) : HandlerFunc :=
  fun _ => .ok ([.str tag], .nil)

/-- A handler function that returns its arguments and a nil `*dbus.Error`. -/
def typedNilHandler : HandlerFunc :=
  fun args => .ok (args, .busError none)

/-- A method set with the single method `Ping`, bound to `fn`. -/
def pingMethods (fn : HandlerFunc) : GoMap MethodItem :=
  (∅ : GoMap MethodItem).insert "Ping" { Value := .func [] [.string, .busErrorPtr], Fn := fn }

/-- The child name `introspectPath` derives from the registered path `obj` when
asked about `path`: `strings.Split(string(obj[len(p):]), "/")[0]`. -/
def childName (path obj : String) : String :=
  ⟨(splitSlash (obj.data.drop (childPrefix path).length)).headD []⟩

/-- The lines `introspectPath` writes for the child names `names`, in that order. -/
def childLines : List String → String
  | [] => ""
  | s :: rest => ("\n\t<node name=\"" ++ s ++ "\"/>") ++ childLines rest

/-- A registry with registrations at `/a/b`, `/a/b/c` and `/a/b/c/d`. -/
def chainState : Handler :=
  (((newHandler.Export (some ∅) "/a/b" "com.example.I").1.Export (some ∅) "/a/b/c"
    "com.example.I").1.Export (some ∅) "/a/b/c/d" "com.example.I").1

/-- A registry in which the root `/` is registered. -/
def rootRegisteredState : Handler :=
  (newHandler.Export (some ∅) "/" "com.example.I").1

/-- A binding whose reflected function takes one string, bound to a handler that
answers `pong` whatever it is given. -/
def oneStringMethod : exportedMethod :=
  { value := .func [.string] [.string, .busErrorPtr], fn := constHandler "pong" }

/-- A node with the interfaces `com.example.I` (method `Ping`) and
`com.example.J` (methods `Ping` and `Stop`). -/
def twoInterfaceNode : exportedObj :=
  { interfaces :=
      ((∅ : GoMap exportedIntf).insert "com.example.J"
        (newExportedIntf
          (((∅ : GoMap exportedMethod).insert "Ping" ⟨.func [] [], constHandler "j"⟩).insert
            "Stop" ⟨.func [] [], constHandler "stop"⟩) false)).insert "com.example.I"
        (newExportedIntf ((∅ : GoMap exportedMethod).insert "Ping" ⟨.func [] [], constHandler "i"⟩)
          false) }

/-- A registry in which `/ab` holds `com.example.I` with subtree scope. -/
def abState : Handler :=
  { objects := (∅ : GoMap exportedObj).insert "/ab"
      { interfaces := (∅ : GoMap exportedIntf).insert "com.example.I" subtreeTable }
    defaultIntf := newHandler.defaultIntf }

/-- A path that is empty or begins with `/`. -/
def SlashLed (path : String) : Prop :=
  path.data = [] ∨ ∃ t, path.data = '/' :: t

/-- A table that registered for the subtree, with the single method `Ping`
answered with `tag`. -/
def pingSubtreeTable (tag : String) : exportedIntf :=
  newExportedIntf
    ((∅ : GoMap exportedMethod).insert "Ping"
      ⟨.func [] [.string, .busErrorPtr], constHandler tag⟩) true

/-- A registry in which `/a` holds, with subtree scope, an interface registered
under the empty name and the interface `com.example.J`; both have `Ping`. -/
def emptyNameState : Handler :=
  { objects := (∅ : GoMap exportedObj).insert "/a"
      { interfaces :=
          ((∅ : GoMap exportedIntf).insert "com.example.J" (pingSubtreeTable "j")).insert ""
            (pingSubtreeTable "empty") }
    defaultIntf := newHandler.defaultIntf }

/-- The registry `emptyNameState` with the child `/a/b` registered as well. -/
def emptyNameNestedState : Handler :=
  { objects := emptyNameState.objects.insert "/a/b"
      { interfaces := (∅ : GoMap exportedIntf).insert "com.example.K" (newExportedIntf ∅ false) }
    defaultIntf := newHandler.defaultIntf }

/-- A registry in which the empty path holds `com.example.I` with subtree scope
and `/b` is registered. -/
def emptyPathState : Handler :=
  { objects := ((∅ : GoMap exportedObj).insert ""
        { interfaces := (∅ : GoMap exportedIntf).insert "com.example.I" subtreeTable }).insert "/b"
      { interfaces := (∅ : GoMap exportedIntf).insert "com.example.J" (newExportedIntf ∅ false) }
    defaultIntf := newHandler.defaultIntf }

/-! ## Lemmas on paths -/

theorem cutList_eq_some {s q : List Char} (hq : cutList s = some q) :
    ∃ r, s = q ++ '/' :: r ∧ '/' ∉ r := by
  induction s generalizing q with
  | nil => simp [cutList] at hq
  | cons c cs ih =>
    simp only [cutList] at hq
    cases hcs : cutList cs with
    | some p =>
      rw [hcs] at hq
      simp only [Option.some.injEq] at hq
      obtain ⟨r, hr, hnot⟩ := ih hcs
      exact ⟨r, by rw [← hq, hr]; rfl, hnot⟩
    | none =>
      rw [hcs] at hq
      by_cases hc : c = '/'
      · simp only [hc, if_true, Option.some.injEq] at hq
        refine ⟨cs, by rw [← hq, hc]; rfl, ?_⟩
        intro hmem
        clear hq ih
        induction cs with
        | nil => simp at hmem
        | cons d ds ihd =>
          simp only [cutList] at hcs
          cases hds : cutList ds with
          | some p => rw [hds] at hcs; simp at hcs
          | none =>
            rw [hds] at hcs
            by_cases hd : d = '/'
            · simp [hd] at hcs
            · rcases List.mem_cons.mp hmem with h1 | h1
              · exact hd h1.symm
              · exact ihd hds h1
      · simp [hc] at hq

theorem cutList_append_slash (q r : List Char) (hr : '/' ∉ r) :
    cutList (q ++ '/' :: r) = some q := by
  have hnone : cutList r = none := by
    cases h : cutList r with
    | none => rfl
    | some p =>
      obtain ⟨r2, hr2, _⟩ := cutList_eq_some h
      exact absurd (by rw [hr2]; simp) hr
  induction q with
  | nil => simp [cutList, hnone]
  | cons c cs ih => simp [cutList, ih]

theorem cutList_isSome_of_mem {s : List Char} (hs : '/' ∈ s) : ∃ q, cutList s = some q := by
  induction s with
  | nil => simp at hs
  | cons c cs ih =>
    simp only [cutList]
    cases hcs : cutList cs with
    | some p => exact ⟨c :: p, rfl⟩
    | none =>
      rcases List.mem_cons.mp hs with h1 | h1
      · exact ⟨[], by simp [h1.symm]⟩
      · obtain ⟨q, hq⟩ := ih h1
        rw [hq] at hcs
        simp at hcs

/-- Where a cut of `p ++ "/" ++ rest` lands: on `p` itself or on a longer path below `p`. -/
theorem cut_below {p rest q r : List Char} (h : p ++ '/' :: rest = q ++ '/' :: r)
    (hr : '/' ∉ r) : q = p ∨ (p ++ ['/']) <+: q := by
  rcases List.append_eq_append_iff.mp h with ⟨a, ha, hb⟩ | ⟨c, hc, hd⟩
  · cases a with
    | nil => left; simpa using ha
    | cons x a2 =>
      right
      simp only [List.cons_append, List.cons.injEq] at hb
      refine ⟨a2, ?_⟩
      rw [ha, ← hb.1]
      simp
  · cases c with
    | nil => left; simpa using hc.symm
    | cons x c2 =>
      simp only [List.cons_append, List.cons.injEq] at hd
      exact absurd (by rw [hd.2]; simp) hr

theorem cutAtLastSlash_eq_ok {path shorter : String} (h : cutAtLastSlash path = .ok shorter) :
    ∃ r, path.data = shorter.data ++ '/' :: r ∧ '/' ∉ r := by
  unfold cutAtLastSlash at h
  cases hc : cutList path.data with
  | none => rw [hc] at h; simp at h
  | some q =>
    rw [hc] at h
    simp only [Except.ok.injEq] at h
    subst h
    exact cutList_eq_some hc

theorem cutAtLastSlash_length {path shorter : String} (h : cutAtLastSlash path = .ok shorter) :
    shorter.length < path.length := by
  obtain ⟨r, hr, _⟩ := cutAtLastSlash_eq_ok h
  show shorter.data.length < path.data.length
  rw [hr]
  simp

theorem cutAtLastSlash_append (q : String) (r : List Char) (hr : '/' ∉ r) :
    cutAtLastSlash ⟨q.data ++ '/' :: r⟩ = .ok q := by
  unfold cutAtLastSlash
  simp [cutList_append_slash q.data r hr]

/-! ## Lemmas on the loops of the handler -/

theorem foldl_copy_lookup (l : List (Σ _ : String, exportedIntf)) (hnd : l.NodupKeys)
    (acc : GoMap exportedIntf) (n : String) :
    (l.foldl (fun acc e => if e.2.isFallbackInterface then acc.insert e.1 e.2 else acc) acc).lookup n
      = match l.dlookup n with
        | some t => if t.includeSubtree then some t else acc.lookup n
        | none => acc.lookup n := by
  induction l generalizing acc with
  | nil => simp
  | cons e t ih =>
    obtain ⟨a, b⟩ := e
    rw [List.nodupKeys_cons] at hnd
    rw [List.foldl_cons, ih hnd.2]
    by_cases hna : n = a
    · subst hna
      have hnone : List.dlookup n t = none := List.dlookup_eq_none.mpr hnd.1
      rw [hnone, List.dlookup_cons_eq]
      simp only [exportedIntf.isFallbackInterface]
      by_cases hb : b.includeSubtree = true
      · simp [hb, AList.lookup_insert]
      · simp [hb]
    · rw [List.dlookup_cons_ne _ _ hna]
      have hacc : AList.lookup n (if (⟨a, b⟩ : Σ _ : String, exportedIntf).2.isFallbackInterface
          then acc.insert a b else acc) = acc.lookup n := by
        by_cases hb : b.isFallbackInterface = true
        · simp [hb, AList.lookup_insert_ne hna]
        · simp [hb]
      simp only [hacc]

theorem lookup_copyFallback (o : exportedObj) (n : String) :
    (copyFallback o ∅).lookup n =
      match o.interfaces.lookup n with
      | some t => if t.includeSubtree then some t else none
      | none => none := by
  unfold copyFallback
  rw [foldl_copy_lookup _ o.interfaces.nodupKeys]
  rfl

theorem lookup_mergeDefaults (d into : GoMap exportedIntf) (n : String) :
    (mergeDefaults d into).lookup n =
      match into.lookup n with
      | some t => some t
      | none => d.lookup n := by
  unfold mergeDefaults
  have key : ∀ (l : List (Σ _ : String, exportedIntf)) (acc : GoMap exportedIntf),
      (l.foldl (fun acc e => if (acc.lookup e.1).isSome then acc else acc.insert e.1 e.2) acc).lookup n
        = match acc.lookup n with
          | some t => some t
          | none => l.dlookup n := by
    intro l
    induction l with
    | nil => intro acc; cases hacc : acc.lookup n <;> simp [hacc]
    | cons e t ih =>
      intro acc
      obtain ⟨a, b⟩ := e
      rw [List.foldl_cons, ih]
      by_cases hna : n = a
      · subst hna
        cases hacc : acc.lookup n with
        | some v => simp [hacc]
        | none => simp [hacc, AList.lookup_insert]
      · rw [List.dlookup_cons_ne _ _ hna]
        by_cases hs : (acc.lookup a).isSome = true
        · simp [hs]
        · simp [hs, AList.lookup_insert_ne hna]
  rw [key]
  rfl

theorem lookup_exportMethods (ms : GoMap MethodItem) (n : String) :
    (exportMethods ms).lookup n =
      (ms.lookup n).map (fun item => { value := item.Value, fn := item.Fn }) := by
  unfold exportMethods
  have key : ∀ (l : List (Σ _ : String, MethodItem)), l.NodupKeys →
      ∀ (acc : GoMap exportedMethod),
      (l.foldl (fun acc e => acc.insert e.1 ({ value := e.2.Value, fn := e.2.Fn } : exportedMethod))
          acc).lookup n
        = match l.dlookup n with
          | some item => some { value := item.Value, fn := item.Fn }
          | none => acc.lookup n := by
    intro l
    induction l with
    | nil => intro _ acc; simp
    | cons e t ih =>
      intro hnd acc
      obtain ⟨a, b⟩ := e
      rw [List.nodupKeys_cons] at hnd
      rw [List.foldl_cons, ih hnd.2]
      by_cases hna : n = a
      · subst hna
        rw [List.dlookup_eq_none.mpr hnd.1, List.dlookup_cons_eq]
        simp [AList.lookup_insert]
      · rw [List.dlookup_cons_ne _ _ hna]
        simp [AList.lookup_insert_ne hna]
  rw [key _ ms.nodupKeys]
  show _ = Option.map _ (List.dlookup n ms.entries)
  cases List.dlookup n ms.entries <;> simp

theorem subtreeLoop_fuel (objects : GoMap exportedObj) :
    ∀ (fuel : Nat) (path : String), path.length ≤ fuel →
      subtreeLoop objects fuel path ≠ .error .fuel := by
  intro fuel
  induction fuel with
  | zero =>
    intro path hlen
    have h0 : ¬ path.length > 0 := by omega
    simp [subtreeLoop, h0]
  | succ k ih =>
    intro path hlen
    unfold subtreeLoop
    by_cases hpos : path.length > 0
    · simp only [hpos, if_true]
      cases hreg : objects.lookup path with
      | some object => simp
      | none =>
        simp only
        cases hcut : cutAtLastSlash path with
        | error f =>
          have hf : f = .sliceBounds := by
            unfold cutAtLastSlash at hcut
            cases hc : cutList path.data with
            | none => rw [hc] at hcut; simp at hcut; exact hcut.symm
            | some q => rw [hc] at hcut; simp at hcut
          simp [hf]
        | ok shorter =>
          have := cutAtLastSlash_length hcut
          exact ih shorter (by omega)
    · simp [hpos]

theorem subtreeLoop_sound (objects : GoMap exportedObj) :
    ∀ (fuel : Nat) (path : String) (m : GoMap exportedIntf),
      subtreeLoop objects fuel path = .ok m →
      ∀ n t, m.lookup n = some t →
        t.includeSubtree = true ∧
          ∃ q o, objects.lookup q = some o ∧ o.interfaces.lookup n = some t := by
  have copy : ∀ (q : String) (o : exportedObj), objects.lookup q = some o →
      ∀ n t, (copyFallback o ∅).lookup n = some t →
        t.includeSubtree = true ∧
          ∃ q o, objects.lookup q = some o ∧ o.interfaces.lookup n = some t := by
    intro q o hq n t hn
    rw [lookup_copyFallback] at hn
    cases ho : o.interfaces.lookup n with
    | none => rw [ho] at hn; simp at hn
    | some t2 =>
      rw [ho] at hn
      by_cases hflag : t2.includeSubtree = true
      · simp only [hflag, if_true, Option.some.injEq] at hn
        subst hn
        exact ⟨hflag, q, o, hq, ho⟩
      · simp [hflag] at hn
  intro fuel
  induction fuel with
  | zero =>
    intro path m hm n t hn
    unfold subtreeLoop at hm
    by_cases hpos : path.length > 0
    · simp only [hpos, if_true] at hm
      cases hreg : objects.lookup path with
      | some object =>
        rw [hreg] at hm
        simp only [Except.ok.injEq] at hm
        subst hm
        exact copy path object hreg n t hn
      | none => rw [hreg] at hm; simp at hm
    · simp only [hpos, if_false, Except.ok.injEq] at hm
      subst hm
      simp at hn
  | succ k ih =>
    intro path m hm n t hn
    unfold subtreeLoop at hm
    by_cases hpos : path.length > 0
    · simp only [hpos, if_true] at hm
      cases hreg : objects.lookup path with
      | some object =>
        rw [hreg] at hm
        simp only [Except.ok.injEq] at hm
        subst hm
        exact copy path object hreg n t hn
      | none =>
        rw [hreg] at hm
        simp only at hm
        cases hcut : cutAtLastSlash path with
        | error f => rw [hcut] at hm; simp at hm
        | ok shorter =>
          rw [hcut] at hm
          exact ih shorter m hm n t hn
    · simp only [hpos, if_false, Except.ok.injEq] at hm
      subst hm
      simp at hn

theorem subtreeLoop_reach (objects : GoMap exportedObj) (P : String) (oP : exportedObj)
    (hP : P ≠ "") (hreg : objects.lookup P = some oP) :
    ∀ (fuel : Nat) (D : String), D.length ≤ fuel →
      (D = P ∨ (P.data ++ ['/']) <+: D.data) →
      (∀ Q : String, (P.data ++ ['/']) <+: Q.data →
        (Q = D ∨ (Q.data ++ ['/']) <+: D.data) → objects.lookup Q = none) →
      subtreeLoop objects fuel D = .ok (copyFallback oP ∅) := by
  have hPpos : P.length > 0 := by
    rcases P with ⟨l⟩
    cases l with
    | nil => exact absurd rfl hP
    | cons c cs => simp [String.length]
  intro fuel
  induction fuel with
  | zero =>
    intro D hlen hbelow _
    rcases hbelow with rfl | ⟨r, hr⟩
    · omega
    · have : D.length = (P.data ++ ['/'] ++ r).length := by rw [hr]; rfl
      simp at this
      omega
  | succ k ih =>
    intro D hlen hbelow hfree
    rcases hbelow with rfl | hpre
    · unfold subtreeLoop
      simp [hPpos, hreg]
    · have hDnone : objects.lookup D = none := hfree D hpre (Or.inl rfl)
      obtain ⟨rest, hrest⟩ := hpre
      have hDpos : D.length > 0 := by
        have : D.length = (P.data ++ ['/'] ++ rest).length := by rw [hrest]; rfl
        simp at this
        omega
      have hmem : '/' ∈ D.data := by rw [← hrest]; simp
      obtain ⟨q, hq⟩ := cutList_isSome_of_mem hmem
      have hcut : cutAtLastSlash D = .ok ⟨q⟩ := by simp [cutAtLastSlash, hq]
      obtain ⟨r, hr, hnot⟩ := cutList_eq_some hq
      have hlt := cutAtLastSlash_length hcut
      have hsplit : P.data ++ '/' :: rest = q ++ '/' :: r := by
        rw [← hr, ← hrest]; simp
      have hbelow2 : (⟨q⟩ : String) = P ∨ (P.data ++ ['/']) <+: (⟨q⟩ : String).data := by
        rcases cut_below hsplit hnot with h1 | h1
        · left; rw [h1]
        · right; exact h1
      have hqD : (q ++ ['/']) <+: D.data := ⟨r, by rw [hr]; simp⟩
      unfold subtreeLoop
      simp only [hDpos, if_true, hDnone, hcut]
      apply ih ⟨q⟩ (by omega) hbelow2
      intro Q hQ1 hQ2
      apply hfree Q hQ1
      right
      rcases hQ2 with rfl | h2
      · exact hqD
      · exact List.IsPrefix.trans h2 ⟨'/' :: r, by rw [hr]⟩

theorem LookupObject_fallback (h : Handler) (P D : String) (oP : exportedObj)
    (hP : P ≠ "") (hreg : h.objects.lookup P = some oP)
    (hpre : (P.data ++ ['/']) <+: D.data) (hD : h.objects.lookup D = none)
    (hfree : ∀ Q : String, (P.data ++ ['/']) <+: Q.data → (Q.data ++ ['/']) <+: D.data →
      h.objects.lookup Q = none) :
    h.LookupObject D =
      .ok (.synthesized { interfaces := mergeDefaults h.defaultIntf (copyFallback oP ∅) }, true) := by
  obtain ⟨rest, hrest⟩ := hpre
  have hmem : '/' ∈ D.data := by rw [← hrest]; simp
  obtain ⟨q, hq⟩ := cutList_isSome_of_mem hmem
  have hcut : cutAtLastSlash D = .ok ⟨q⟩ := by simp [cutAtLastSlash, hq]
  obtain ⟨r, hr, hnot⟩ := cutList_eq_some hq
  have hsplit : P.data ++ '/' :: rest = q ++ '/' :: r := by
    rw [← hr, ← hrest]; simp
  have hbelow2 : (⟨q⟩ : String) = P ∨ (P.data ++ ['/']) <+: (⟨q⟩ : String).data := by
    rcases cut_below hsplit hnot with h1 | h1
    · left; rw [h1]
    · right; exact h1
  have hqD : (q ++ ['/']) <+: D.data := ⟨r, by rw [hr]; simp⟩
  have hloop := subtreeLoop_reach h.objects P oP hP hreg (String.length ⟨q⟩) ⟨q⟩ (le_refl _)
    hbelow2 (by
      intro Q hQ1 hQ2
      apply hfree Q hQ1
      rcases hQ2 with rfl | h2
      · exact hqD
      · exact List.IsPrefix.trans h2 ⟨'/' :: r, by rw [hr]⟩)
  unfold Handler.LookupObject
  simp only [hD, hcut, hloop]

/-! ## Lemmas on `Export`, `DeleteObject` and the reachable states -/

/-- The binding `newIntrospectIntf` installs under the name `Introspect`. -/
theorem introspect_binding :
    newIntrospectIntf.LookupMethod "Introspect" =
      some { value := .func [.message] [.string, .busErrorPtr], fn := fun _ => .ok ([], .nil) } := by
  rfl

theorem lookup_newHandler_defaultIntf :
    newHandler.defaultIntf.lookup introspectableName = some newIntrospectIntf := by
  rfl

theorem export_valid (h : Handler) (ms : GoMap MethodItem) (path iface : String)
    (hv : IsValid path = true) :
    h.export (some ms) path iface =
      (⟨h.objects.insert path
          (((h.objects.lookup path).getD newExportedObject).AddInterface iface
            (newExportedIntf (exportMethods ms) false)), h.defaultIntf⟩, .nil) := by
  unfold Handler.export
  simp only [hv, Bool.not_true, Bool.false_eq_true, if_false]
  cases hreg : h.objects.lookup path with
  | some o =>
    simp [Handler.PathExists, hreg, Handler.AddObject]
  | none =>
    simp [Handler.PathExists, hreg, Handler.AddObject, AList.lookup_insert, AList.insert_insert]

theorem export_invalid (h : Handler) (methods : Option (GoMap MethodItem)) (path iface : String)
    (hv : IsValid path = false) :
    h.export methods path iface = (h, .other ("dbus: Invalid path name: \"" ++ path ++ "\"")) := by
  unfold Handler.export
  simp [hv]

theorem export_nil (h : Handler) (path iface : String) (hv : IsValid path = true) :
    h.export none path iface = (h, .nil) := by
  unfold Handler.export
  simp [hv]

theorem invariant_export (h : Handler) (methods : Option (GoMap MethodItem)) (path iface : String)
    (hinv : Invariant h) : Invariant (h.Export methods path iface).1 := by
  unfold Handler.Export
  cases hv : IsValid path with
  | false => rw [export_invalid h methods path iface hv]; exact hinv
  | true =>
    cases methods with
    | none => rw [export_nil h path iface hv]; exact hinv
    | some ms =>
      rw [export_valid h ms path iface hv]
      refine ⟨hinv.1, ?_⟩
      intro p o n t hp hn
      by_cases hpp : p = path
      · subst hpp
        rw [AList.lookup_insert] at hp
        simp only [Option.some.injEq] at hp
        subst hp
        simp only [exportedObj.AddInterface] at hn
        by_cases hni : n = iface
        · subst hni
          rw [AList.lookup_insert] at hn
          simp only [Option.some.injEq] at hn
          subst hn
          rfl
        · rw [AList.lookup_insert_ne hni] at hn
          cases hold : h.objects.lookup p with
          | none =>
            rw [hold] at hn
            simp [newExportedObject] at hn
          | some o2 =>
            rw [hold] at hn
            exact hinv.2 p o2 n t hold hn
      · rw [AList.lookup_insert_ne hpp] at hp
        exact hinv.2 p o n t hp hn

theorem invariant_delete (h : Handler) (path : String) (hinv : Invariant h) :
    Invariant (h.DeleteObject path) := by
  refine ⟨hinv.1, ?_⟩
  intro p o n t hp hn
  simp only [Handler.DeleteObject] at hp
  by_cases hpp : p = path
  · subst hpp; rw [AList.lookup_erase] at hp; simp at hp
  · rw [AList.lookup_erase_ne hpp] at hp
    exact hinv.2 p o n t hp hn

theorem reachable_invariant {h : Handler} (hr : Reachable h) : Invariant h := by
  induction hr with
  | init => exact ⟨rfl, by intro p o n t hp; simp [newHandler] at hp⟩
  | exported h methods path iface _ ih => exact invariant_export h methods path iface ih
  | deleted h path _ ih => exact invariant_delete h path ih

theorem LookupObject_ne_fuel (h : Handler) (path : String) :
    h.LookupObject path ≠ .error .fuel := by
  unfold Handler.LookupObject
  cases h.objects.lookup path with
  | some o => simp
  | none =>
    simp only
    cases hcut : cutAtLastSlash path with
    | error f =>
      unfold cutAtLastSlash at hcut
      cases hc : cutList path.data with
      | none => rw [hc] at hcut; simp at hcut; simp [← hcut]
      | some q => rw [hc] at hcut; simp at hcut
    | ok shorter =>
      simp only
      have hne := subtreeLoop_fuel h.objects shorter.length shorter (le_refl _)
      cases hloop : subtreeLoop h.objects shorter.length shorter with
      | error f =>
        rw [hloop] at hne
        intro hc
        simp only [Except.error.injEq] at hc
        exact hne (by rw [hc])
      | ok m => simp

theorem LookupObject_registered (h : Handler) (path : String) (o : exportedObj)
    (hreg : h.objects.lookup path = some o) :
    h.LookupObject path = .ok (.registered o, true) := by
  unfold Handler.LookupObject
  rw [hreg]

theorem lookup_export_objects (h : Handler) (ms : GoMap MethodItem) (path iface : String)
    (hv : IsValid path = true) :
    (h.Export (some ms) path iface).1.objects.lookup path =
      some (((h.objects.lookup path).getD newExportedObject).AddInterface iface
        (newExportedIntf (exportMethods ms) false)) := by
  unfold Handler.Export
  rw [export_valid h ms path iface hv]
  exact AList.lookup_insert _

theorem export_error_nil_iff (h : Handler) (methods : Option (GoMap MethodItem))
    (path iface : String) :
    (h.Export methods path iface).2 = .nil ↔ IsValid path = true := by
  unfold Handler.Export
  cases hv : IsValid path with
  | false => rw [export_invalid h methods path iface hv]; simp
  | true =>
    cases methods with
    | none => rw [export_nil h path iface hv]; simp
    | some ms => rw [export_valid h ms path iface hv]; simp

theorem unwrapArgs_map_ptr (args : List GoValue) :
    unwrapArgs (args.map GoValue.ptr) = .ok args := by
  induction args with
  | nil => rfl
  | cons a rest ih => simp [unwrapArgs, elemInterface, ih]

theorem call_exported (item : MethodItem) (args : List GoValue) :
    (⟨item.Value, item.Fn⟩ : exportedMethod).Call (args.map GoValue.ptr) =
      match item.Fn args with
      | .error f => .error f
      | .ok (results, err) => .ok (results, normalizeError err) := by
  unfold exportedMethod.Call
  rw [unwrapArgs_map_ptr]

theorem normalizeError_of_ne {err : GoError} (h : err ≠ .busError none) :
    normalizeError err = err := by
  cases err with
  | nil => rfl
  | other msg => rfl
  | busError e =>
    cases e with
    | none => exact absurd rfl h
    | some d => rfl

/-! ## Lemmas on descendants and the fallback node -/

theorem childPrefix_data {P : String} (hroot : P ≠ "/") :
    (childPrefix P).data = P.data ++ ['/'] := by
  unfold childPrefix
  simp only [ne_eq, hroot, not_false_eq_true, if_true]
  rfl

theorem string_ne_empty_length {P : String} (hP : P ≠ "") : 0 < P.data.length := by
  rcases P with ⟨l⟩
  cases l with
  | nil => exact absurd rfl hP
  | cons c cs => simp

/-- A path strictly between `P` and `D`, in the terms of the loop lemmas. -/
theorem between_of_prefixes {P Q D : String} (hP : P ≠ "")
    (h1 : (P.data ++ ['/']) <+: Q.data) (h2 : (Q.data ++ ['/']) <+: D.data) :
    StrictDescendant Q P ∧ StrictDescendant D Q := by
  have hPlen := string_ne_empty_length hP
  have hQlen : P.data.length + 1 ≤ Q.data.length := by
    have := h1.length_le
    simpa using this
  have hDlen : Q.data.length + 1 ≤ D.data.length := by
    have := h2.length_le
    simpa using this
  have hQroot : Q ≠ "/" := by
    intro hq
    have h1len : ("/" : String).data.length = 1 := rfl
    rw [hq, h1len] at hQlen
    omega
  refine ⟨⟨?_, ?_⟩, ⟨?_, ?_⟩⟩
  · by_cases hroot : P = "/"
    · subst hroot
      obtain ⟨r, hr⟩ := h1
      exact ⟨'/' :: r, by rw [← hr]; rfl⟩
    · rw [childPrefix_data hroot]; exact h1
  · intro hqp; rw [hqp] at hQlen; omega
  · rw [childPrefix_data hQroot]; exact h2
  · intro hdq; rw [hdq] at hDlen; omega

theorem LookupObject_nearest (h : Handler) (P D : String) (oP : exportedObj)
    (hP0 : P ≠ "") (hroot : P ≠ "/") (hreg : h.objects.lookup P = some oP)
    (hdesc : StrictDescendant D P) (hD : h.objects.lookup D = none)
    (hbetween : ∀ Q, StrictDescendant Q P → StrictDescendant D Q → h.objects.lookup Q = none) :
    h.LookupObject D =
      .ok (.synthesized { interfaces := mergeDefaults h.defaultIntf (copyFallback oP ∅) }, true) := by
  have hpre : (P.data ++ ['/']) <+: D.data := by
    have := hdesc.1
    rwa [childPrefix_data hroot] at this
  apply LookupObject_fallback h P D oP hP0 hreg hpre hD
  intro Q h1 h2
  obtain ⟨hq1, hq2⟩ := between_of_prefixes hP0 h1 h2
  exact hbetween Q hq1 hq2

theorem lookup_fallback_node (d : GoMap exportedIntf) (oP : exportedObj) (n : String)
    (t : exportedIntf) (hn : oP.interfaces.lookup n = some t) (ht : t.includeSubtree = true) :
    (mergeDefaults d (copyFallback oP ∅)).lookup n = some t := by
  rw [lookup_mergeDefaults, lookup_copyFallback, hn]
  simp [ht]

theorem subtreeState_between (D : String) :
    ∀ Q, StrictDescendant Q "/a" → StrictDescendant D Q → subtreeState.objects.lookup Q = none := by
  intro Q hQ _
  have hne : Q ≠ "/a" := hQ.2
  simp only [subtreeState]
  rw [AList.lookup_insert_ne hne]
  rfl

theorem foldl_lines (names : List String) (xml : String) :
    names.foldl (fun xml s => xml ++ ("\n\t<node name=\"" ++ s ++ "\"/>")) xml =
      xml ++ childLines names := by
  induction names generalizing xml with
  | nil => simp [childLines]
  | cons s rest ih =>
    rw [List.foldl_cons, ih, childLines, String.append_assoc]

theorem mem_subpaths_fold (path : String) (l : List String) (acc : GoMap Unit) (n : String) :
    n ∈ (l.foldl
      (fun subpath obj =>
        let p := childPrefix path
        if p.data.isPrefixOf obj.data then
          let node_name : String := ⟨(splitSlash (obj.data.drop p.length)).headD []⟩
          subpath.insert node_name ()
        else subpath) acc) ↔
      n ∈ acc ∨ ∃ obj ∈ l, (childPrefix path).data <+: obj.data ∧ n = childName path obj := by
  induction l generalizing acc with
  | nil => simp
  | cons o rest ih =>
    rw [List.foldl_cons, ih]
    by_cases hp : (childPrefix path).data.isPrefixOf o.data = true
    · have hp2 : (childPrefix path).data <+: o.data := List.isPrefixOf_iff_prefix.mp hp
      simp only [hp, if_true, AList.mem_insert, List.mem_cons, exists_eq_or_imp]
      constructor
      · rintro ((h1 | h1) | h1)
        · exact Or.inr (Or.inl ⟨hp2, h1⟩)
        · exact Or.inl h1
        · exact Or.inr (Or.inr h1)
      · rintro (h1 | ⟨_, h1⟩ | h1)
        · exact Or.inl (Or.inr h1)
        · exact Or.inl (Or.inl h1)
        · exact Or.inr h1
    · have hp2 : ¬ (childPrefix path).data <+: o.data := fun hc =>
        hp (List.isPrefixOf_iff_prefix.mpr hc)
      simp only [hp, List.mem_cons, exists_eq_or_imp]
      constructor
      · rintro (h1 | h1)
        · exact Or.inl h1
        · exact Or.inr (Or.inr h1)
      · rintro (h1 | ⟨h2, _⟩ | h1)
        · exact Or.inl h1
        · exact absurd h2 hp2
        · exact Or.inr h1

theorem mem_subpaths (h : Handler) (path n : String) :
    n ∈ subpaths h path ↔
      ∃ obj, obj ∈ h.objects ∧ (childPrefix path).data <+: obj.data ∧ n = childName path obj := by
  unfold subpaths
  rw [mem_subpaths_fold]
  simp [AList.mem_keys]

theorem introspectPath_eq (h : Handler) (order : List String → List String) (path : String) :
    h.introspectPath order path =
      "<node>" ++ childLines (order (subpaths h path).keys) ++ "\n</node>" := by
  unfold Handler.introspectPath
  simp only [foldl_lines]

theorem splitSlash_ne_nil (l : List Char) : splitSlash l ≠ [] := by
  cases l with
  | nil => simp [splitSlash]
  | cons c cs =>
    unfold splitSlash
    by_cases hc : c = '/'
    · simp [hc]
    · simp only [hc, if_false]
      cases splitSlash cs <;> simp

theorem splitSlash_append (a b : List Char) :
    splitSlash (a ++ '/' :: b) = splitSlash a ++ splitSlash b := by
  induction a with
  | nil => simp [splitSlash]
  | cons c cs ih =>
    by_cases hc : c = '/'
    · simp [splitSlash, hc, ih]
    · have hne := splitSlash_ne_nil cs
      cases hs : splitSlash cs with
      | nil => exact absurd hs hne
      | cons seg segs =>
        have hstep : ∀ (l : List Char) (s : List Char) (ss : List (List Char)),
            splitSlash l = s :: ss → splitSlash (c :: l) = (c :: s) :: ss := by
          intro l s ss hl
          simp [splitSlash, hc, hl]
        rw [List.cons_append, hstep cs seg segs hs,
          hstep (cs ++ '/' :: b) seg (segs ++ splitSlash b) (by rw [ih, hs]; rfl)]
        rfl

theorem splitSlash_no_slash (l : List Char) : ∀ seg ∈ splitSlash l, '/' ∉ seg := by
  induction l with
  | nil => simp [splitSlash]
  | cons c cs ih =>
    unfold splitSlash
    by_cases hc : c = '/'
    · simp only [hc, if_true, List.mem_cons]
      rintro seg (rfl | hseg)
      · simp
      · exact ih seg hseg
    · simp only [hc, if_false]
      cases hs : splitSlash cs with
      | nil => simp [Ne.symm hc]
      | cons s ss =>
        rw [hs] at ih
        simp only [List.mem_cons]
        rintro seg (rfl | hseg)
        · simp only [List.mem_cons, not_or]
          exact ⟨Ne.symm hc, ih s (List.mem_cons_self _ _)⟩
        · exact ih seg (List.mem_cons_of_mem _ hseg)

theorem headD_mem_splitSlash (l : List Char) : (splitSlash l).headD [] ∈ splitSlash l := by
  cases hs : splitSlash l with
  | nil => exact absurd hs (splitSlash_ne_nil l)
  | cons s ss => simp

theorem isValid_iff (p : String) :
    IsValid p = true ↔
      ∃ rest, p.data = '/' :: rest ∧ (rest = [] ∨ ∀ seg ∈ splitSlash rest, seg ≠ []) := by
  unfold IsValid
  cases hp : p.data with
  | nil => simp
  | cons c rest =>
    simp only [Bool.and_eq_true, beq_iff_eq, Bool.or_eq_true, List.isEmpty_iff,
      List.all_eq_true, Bool.not_eq_true', List.cons.injEq]
    constructor
    · rintro ⟨hc, hrest⟩
      refine ⟨rest, ⟨hc, rfl⟩, ?_⟩
      rcases hrest with h1 | h1
      · exact Or.inl h1
      · right
        intro seg hseg hnil
        have := h1 seg hseg
        rw [hnil] at this
        simp at this
    · rintro ⟨rest2, ⟨hc, hr⟩, hrest⟩
      subst hr
      refine ⟨hc, ?_⟩
      rcases hrest with h1 | h1
      · exact Or.inl h1
      · right
        intro seg hseg
        have := h1 seg hseg
        cases seg with
        | nil => exact absurd rfl this
        | cons x xs => rfl

theorem childPrefix_root : childPrefix "/" = "/" := by decide

theorem childName_after_childPrefix {Q obj : String} {rest : List Char}
    (h : obj.data = (childPrefix Q).data ++ rest) :
    childName Q obj = ⟨(splitSlash rest).headD []⟩ := by
  unfold childName
  have hlen : (childPrefix Q).length = (childPrefix Q).data.length := rfl
  rw [h, hlen, List.drop_left]

/-- The child names of valid registered paths below a valid path are non-empty
segments, unless the path asked about is a registered root. -/
theorem childName_nonempty {Q obj : String} (hQ : IsValid Q = true) (hobj : IsValid obj = true)
    (hpre : (childPrefix Q).data <+: obj.data) (hne : obj ≠ Q) :
    (childName Q obj).data ≠ [] ∧ '/' ∉ (childName Q obj).data := by
  obtain ⟨rest, hrest⟩ := hpre
  rw [childName_after_childPrefix hrest.symm]
  have hmem := headD_mem_splitSlash rest
  refine ⟨?_, splitSlash_no_slash rest _ hmem⟩
  obtain ⟨ot, hot, hosegs⟩ := (isValid_iff obj).mp hobj
  by_cases hroot : Q = "/"
  · subst hroot
    rw [childPrefix_root] at hrest
    have hrt : ot = rest := by
      have : '/' :: rest = '/' :: ot := by rw [← hot, ← hrest]; rfl
      exact (List.cons.inj this).2.symm
    subst hrt
    rcases hosegs with h1 | h1
    · exfalso
      apply hne
      rcases obj with ⟨l⟩
      simp only at hot
      rw [hot, h1]
    · exact h1 _ hmem
  · obtain ⟨qt, hqt, _⟩ := (isValid_iff Q).mp hQ
    rw [childPrefix_data hroot, hqt] at hrest
    have hot2 : ot = qt ++ '/' :: rest := by
      have : '/' :: ot = '/' :: (qt ++ '/' :: rest) := by rw [← hot, ← hrest]; simp
      exact (List.cons.inj this).2
    rcases hosegs with h1 | h1
    · rw [h1] at hot2
      simp at hot2
    · apply h1
      rw [hot2, splitSlash_append]
      exact List.mem_append_right _ hmem

theorem strictDescendant_iff_starts {Q obj : String} (h : Q ≠ "/" ∨ obj ≠ "/") :
    StrictDescendant obj Q ↔ (childPrefix Q).data <+: obj.data := by
  unfold StrictDescendant
  constructor
  · exact fun hd => hd.1
  · intro hpre
    refine ⟨hpre, ?_⟩
    intro heq
    subst heq
    by_cases hroot : obj = "/"
    · rcases h with h1 | h1 <;> exact h1 hroot
    · rw [childPrefix_data hroot] at hpre
      have := hpre.length_le
      simp at this

theorem unwrapArgs_eq_ok {args newArgs : List GoValue} :
    unwrapArgs args = .ok newArgs ↔ args = newArgs.map GoValue.ptr := by
  constructor
  · intro h
    induction args generalizing newArgs with
    | nil =>
      simp only [unwrapArgs, Except.ok.injEq] at h
      subst h
      rfl
    | cons a rest ih =>
      unfold unwrapArgs at h
      cases a with
      | ptr v =>
        simp only [elemInterface] at h
        cases hr : unwrapArgs rest with
        | error f => rw [hr] at h; simp at h
        | ok vs =>
          rw [hr] at h
          simp only [Except.ok.injEq] at h
          subst h
          rw [ih hr]
          rfl
      | nil => simp [elemInterface] at h
      | bool b => simp [elemInterface] at h
      | int i => simp [elemInterface] at h
      | str s => simp [elemInterface] at h
      | nilPtr => simp [elemInterface] at h
  · intro h
    subst h
    exact unwrapArgs_map_ptr newArgs

theorem call_of_unwrapped (m : exportedMethod) (vs : List GoValue) :
    m.Call (vs.map GoValue.ptr) =
      match m.fn vs with
      | .error f => .error f
      | .ok (results, err) => .ok (results, normalizeError err) :=
  call_exported ⟨m.value, m.fn⟩ vs

theorem call_fault_of_unwrap {args : List GoValue} {f : Fault} (m : exportedMethod)
    (h : unwrapArgs args = .error f) : m.Call args = .error f := by
  unfold exportedMethod.Call
  rw [h]

theorem lookupMethod_some {obj : exportedObj} {order : List String} {n : String}
    {m : exportedMethod} (h : obj.LookupMethod order n = some m) :
    ∃ k, k ∈ order ∧ ∃ t, obj.interfaces.lookup k = some t ∧ t.LookupMethod n = some m := by
  induction order with
  | nil => simp [exportedObj.LookupMethod] at h
  | cons k rest ih =>
    unfold exportedObj.LookupMethod at h
    cases hk : (obj.interfaces.lookup k).bind (fun intf => intf.LookupMethod n) with
    | some method =>
      rw [hk] at h
      simp only [Option.some.injEq] at h
      subst h
      cases ht : obj.interfaces.lookup k with
      | none => rw [ht] at hk; simp at hk
      | some t =>
        rw [ht] at hk
        exact ⟨k, List.mem_cons_self _ _, t, ht, hk⟩
    | none =>
      rw [hk] at h
      obtain ⟨k2, hk2, t, ht, hm⟩ := ih h
      exact ⟨k2, List.mem_cons_of_mem _ hk2, t, ht, hm⟩

theorem lookupMethod_isSome {obj : exportedObj} {order : List String} {n k : String}
    {t : exportedIntf} (hk : k ∈ order) (ht : obj.interfaces.lookup k = some t)
    (hm : (t.LookupMethod n).isSome = true) : (obj.LookupMethod order n).isSome = true := by
  induction order with
  | nil => simp at hk
  | cons k2 rest ih =>
    unfold exportedObj.LookupMethod
    cases hb : (obj.interfaces.lookup k2).bind (fun intf => intf.LookupMethod n) with
    | some method => rfl
    | none =>
      simp only
      rcases List.mem_cons.mp hk with h1 | h1
      · subst h1
        rw [ht] at hb
        change t.LookupMethod n = none at hb
        rw [hb] at hm
        simp at hm
      · exact ih h1

theorem erase_of_not_mem {T : Type} (m : GoMap T) (k : String) (h : m.lookup k = none) :
    m.erase k = m := by
  apply AList.ext
  simp only [AList.erase]
  exact List.kerase_of_not_mem_keys (AList.lookup_eq_none.mp h)

theorem cutAtLastSlash_error {path : String} {f : Fault} (h : cutAtLastSlash path = .error f) :
    f = .sliceBounds ∧ '/' ∉ path.data := by
  unfold cutAtLastSlash at h
  cases hc : cutList path.data with
  | some q => rw [hc] at h; simp at h
  | none =>
    rw [hc] at h
    simp only [Except.error.injEq] at h
    refine ⟨h.symm, ?_⟩
    intro hmem
    obtain ⟨q, hq⟩ := cutList_isSome_of_mem hmem
    rw [hq] at hc
    simp at hc

theorem cutAtLastSlash_of_not_mem {path : String} (h : '/' ∉ path.data) :
    cutAtLastSlash path = .error .sliceBounds := by
  cases hc : cutAtLastSlash path with
  | error f => rw [(cutAtLastSlash_error hc).1]
  | ok shorter =>
    obtain ⟨r, hr, _⟩ := cutAtLastSlash_eq_ok hc
    exact absurd (by rw [hr]; simp) h

theorem subtreeLoop_fuel_irrelevant (objects : GoMap exportedObj) :
    ∀ (fuel1 fuel2 : Nat) (path : String), path.length ≤ fuel1 → path.length ≤ fuel2 →
      subtreeLoop objects fuel1 path = subtreeLoop objects fuel2 path := by
  intro fuel1
  induction fuel1 with
  | zero =>
    intro fuel2 path h1 _
    have h0 : ¬ path.length > 0 := by omega
    cases fuel2 <;> simp [subtreeLoop, h0]
  | succ k ih =>
    intro fuel2 path h1 h2
    by_cases hpos : path.length > 0
    · cases fuel2 with
      | zero => omega
      | succ k2 =>
        unfold subtreeLoop
        simp only [hpos, if_true]
        cases objects.lookup path with
        | some o => rfl
        | none =>
          simp only
          cases hcut : cutAtLastSlash path with
          | error f => rfl
          | ok shorter =>
            have := cutAtLastSlash_length hcut
            exact ih k2 shorter (by omega) (by omega)
    · cases fuel2 <;> simp [subtreeLoop, hpos]

theorem slashLed_cut {path shorter : String} (hs : SlashLed path)
    (hcut : cutAtLastSlash path = .ok shorter) : SlashLed shorter := by
  obtain ⟨r, hr, _⟩ := cutAtLastSlash_eq_ok hcut
  rcases hs with h1 | ⟨t, ht⟩
  · rw [h1] at hr
    simp at hr
  · cases hq : shorter.data with
    | nil => exact Or.inl hq
    | cons c q =>
      right
      rw [hq, ht] at hr
      simp only [List.cons_append, List.cons.injEq] at hr
      exact ⟨q, by rw [hr.1]; exact hq⟩

theorem slashLed_cut_ok {path : String} (hs : SlashLed path) (hne : path.length > 0) :
    ∃ shorter, cutAtLastSlash path = .ok shorter := by
  rcases hs with h1 | ⟨t, ht⟩
  · have : path.length = 0 := by
      show path.data.length = 0
      rw [h1]; rfl
    omega
  · have hmem : '/' ∈ path.data := by rw [ht]; simp
    obtain ⟨q, hq⟩ := cutList_isSome_of_mem hmem
    exact ⟨⟨q⟩, by simp [cutAtLastSlash, hq]⟩

theorem subtreeLoop_slashLed (objects : GoMap exportedObj) :
    ∀ (fuel : Nat) (path : String), path.length ≤ fuel → SlashLed path →
      ∃ m, subtreeLoop objects fuel path = .ok m := by
  intro fuel
  induction fuel with
  | zero =>
    intro path hlen _
    have h0 : ¬ path.length > 0 := by omega
    exact ⟨∅, by simp [subtreeLoop, h0]⟩
  | succ k ih =>
    intro path hlen hs
    unfold subtreeLoop
    by_cases hpos : path.length > 0
    · simp only [hpos, if_true]
      cases objects.lookup path with
      | some o => exact ⟨_, rfl⟩
      | none =>
        simp only
        obtain ⟨shorter, hcut⟩ := slashLed_cut_ok hs hpos
        rw [hcut]
        have := cutAtLastSlash_length hcut
        exact ih shorter (by omega) (slashLed_cut hs hcut)
    · exact ⟨∅, by simp [hpos]⟩

theorem LookupObject_slashLed (h : Handler) (path : String) (hs : ∃ t, path.data = '/' :: t) :
    ∃ node, h.LookupObject path = .ok (node, true) := by
  unfold Handler.LookupObject
  cases h.objects.lookup path with
  | some o => exact ⟨_, rfl⟩
  | none =>
    simp only
    have hled : SlashLed path := Or.inr hs
    have hpos : path.length > 0 := by
      obtain ⟨t, ht⟩ := hs
      show path.data.length > 0
      rw [ht]; simp
    obtain ⟨shorter, hcut⟩ := slashLed_cut_ok hled hpos
    rw [hcut]
    simp only
    obtain ⟨m, hm⟩ := subtreeLoop_slashLed h.objects shorter.length shorter (le_refl _)
      (slashLed_cut hled hcut)
    rw [hm]
    exact ⟨_, rfl⟩

theorem string_eq_of_data {a b : String} (h : a.data = b.data) : a = b := by
  rcases a with ⟨x⟩
  rcases b with ⟨y⟩
  simp only at h
  rw [h]

/-- The registered ancestors of `D` that are longer than the cut `q` of the
unregistered path `p` do not exist, if none is longer than `p`. -/
theorem ancestors_below_cut (objects : GoMap exportedObj) {D p q : String} {r : List Char}
    (hpD : p.data <+: D.data) (hp : objects.lookup p = none)
    (hr : p.data = q.data ++ '/' :: r) (hnot : '/' ∉ r)
    (hlong : ∀ B : String, B ∈ objects → (B.data ++ ['/']) <+: D.data → B.length ≤ p.length) :
    ∀ B : String, B ∈ objects → (B.data ++ ['/']) <+: D.data → B.length ≤ q.length := by
  intro B hB hBD
  have hle := hlong B hB hBD
  have hBD2 : B.data <+: D.data := List.IsPrefix.trans (List.prefix_append _ _) hBD
  rcases Nat.lt_or_ge B.length p.length with hlt | hge
  · have hBp : (B.data ++ ['/']) <+: p.data :=
      List.prefix_of_prefix_length_le hBD hpD (by
        simp only [List.length_append, List.length_singleton]
        exact hlt)
    obtain ⟨x, hx⟩ := hBp
    have hsplit : B.data ++ '/' :: x = q.data ++ '/' :: r := by
      rw [← hr, ← hx]; simp
    rcases cut_below hsplit hnot with h1 | h1
    · show B.data.length ≤ q.data.length
      rw [h1]
    · have := h1.length_le
      simp only [List.length_append, List.length_singleton] at this
      show B.data.length ≤ q.data.length
      omega
  · exfalso
    have hBp : B.data <+: p.data := List.prefix_of_prefix_length_le hBD2 hpD hle
    have hlen : B.data.length = p.data.length := Nat.le_antisymm hle hge
    have heq : B = p := string_eq_of_data (hBp.eq_of_length hlen)
    rw [heq, ← AList.lookup_isSome, hp] at hB
    simp at hB

/-- What the fallback loop computes from the path `p`, an ancestor of `D` with no
longer registered ancestor of `D`: nothing when no non-empty ancestor of `D` is
registered, and else the subtree-scoped interfaces of the longest registered
ancestor. -/
theorem subtreeLoop_nearest (objects : GoMap exportedObj) (D : String) :
    ∀ (fuel : Nat) (p : String) (m : GoMap exportedIntf),
      (p.data ++ ['/']) <+: D.data →
      (∀ B : String, B ∈ objects → (B.data ++ ['/']) <+: D.data → B.length ≤ p.length) →
      subtreeLoop objects fuel p = .ok m →
      (m = ∅ ∧ ∀ B : String, B ∈ objects → B ≠ "" → ¬ (B.data ++ ['/']) <+: D.data) ∨
      (∃ A oA, A ≠ "" ∧ objects.lookup A = some oA ∧ (A.data ++ ['/']) <+: D.data ∧
        (∀ B : String, B ∈ objects → (B.data ++ ['/']) <+: D.data → B.length ≤ A.length) ∧
        m = copyFallback oA ∅) := by
  have hempty : ∀ p : String, ¬ p.length > 0 →
      (∀ B : String, B ∈ objects → (B.data ++ ['/']) <+: D.data → B.length ≤ p.length) →
      ∀ B : String, B ∈ objects → B ≠ "" → ¬ (B.data ++ ['/']) <+: D.data := by
    intro p hp hlong B hB hne hBD
    have h1 := hlong B hB hBD
    have h2 := string_ne_empty_length hne
    have h3 : B.length = B.data.length := rfl
    omega
  have hfound : ∀ (p : String) (o : exportedObj), p.length > 0 → objects.lookup p = some o →
      (p.data ++ ['/']) <+: D.data →
      (∀ B : String, B ∈ objects → (B.data ++ ['/']) <+: D.data → B.length ≤ p.length) →
      ∃ A oA, A ≠ "" ∧ objects.lookup A = some oA ∧ (A.data ++ ['/']) <+: D.data ∧
        (∀ B : String, B ∈ objects → (B.data ++ ['/']) <+: D.data → B.length ≤ A.length) ∧
        copyFallback o ∅ = copyFallback oA ∅ := by
    intro p o hpos hreg hpD hlong
    refine ⟨p, o, ?_, hreg, hpD, hlong, rfl⟩
    intro hc
    rw [hc] at hpos
    exact absurd hpos (by decide)
  intro fuel
  induction fuel with
  | zero =>
    intro p m hpD hlong hm
    unfold subtreeLoop at hm
    by_cases hpos : p.length > 0
    · simp only [hpos, if_true] at hm
      cases hreg : objects.lookup p with
      | none => rw [hreg] at hm; simp at hm
      | some o =>
        rw [hreg] at hm
        simp only [Except.ok.injEq] at hm
        subst hm
        exact Or.inr (hfound p o hpos hreg hpD hlong)
    · simp only [hpos, if_false, Except.ok.injEq] at hm
      exact Or.inl ⟨hm.symm, hempty p hpos hlong⟩
  | succ k ih =>
    intro p m hpD hlong hm
    unfold subtreeLoop at hm
    by_cases hpos : p.length > 0
    · simp only [hpos, if_true] at hm
      cases hreg : objects.lookup p with
      | some o =>
        rw [hreg] at hm
        simp only [Except.ok.injEq] at hm
        subst hm
        exact Or.inr (hfound p o hpos hreg hpD hlong)
      | none =>
        rw [hreg] at hm
        simp only at hm
        cases hcut : cutAtLastSlash p with
        | error f => rw [hcut] at hm; simp at hm
        | ok q =>
          rw [hcut] at hm
          obtain ⟨r, hr, hnot⟩ := cutAtLastSlash_eq_ok hcut
          have hpD2 : p.data <+: D.data := List.IsPrefix.trans (List.prefix_append _ _) hpD
          have hqD : (q.data ++ ['/']) <+: D.data :=
            List.IsPrefix.trans ⟨r, by rw [hr]; simp⟩ hpD2
          exact ih q m hqD (ancestors_below_cut objects hpD2 hreg hr hnot hlong) hm
    · simp only [hpos, if_false, Except.ok.injEq] at hm
      exact Or.inl ⟨hm.symm, hempty p hpos hlong⟩

/-- What `LookupObject` returns for an unregistered path. -/
theorem LookupObject_unregistered (h : Handler) (D : String) (node : ServerObject)
    (found : Bool) (hD : h.objects.lookup D = none)
    (hres : h.LookupObject D = .ok (node, found)) :
    found = true ∧
    ((node = .synthesized { interfaces := mergeDefaults h.defaultIntf ∅ } ∧
        ∀ B : String, B ∈ h.objects → B ≠ "" → ¬ (B.data ++ ['/']) <+: D.data) ∨
      (∃ A oA, A ≠ "" ∧ h.objects.lookup A = some oA ∧ (A.data ++ ['/']) <+: D.data ∧
        (∀ B : String, B ∈ h.objects → (B.data ++ ['/']) <+: D.data → B.length ≤ A.length) ∧
        node = .synthesized { interfaces := mergeDefaults h.defaultIntf (copyFallback oA ∅) })) := by
  unfold Handler.LookupObject at hres
  rw [hD] at hres
  simp only at hres
  cases hcut : cutAtLastSlash D with
  | error f => rw [hcut] at hres; simp at hres
  | ok q =>
    rw [hcut] at hres
    simp only at hres
    cases hloop : subtreeLoop h.objects q.length q with
    | error f => rw [hloop] at hres; simp at hres
    | ok m =>
      rw [hloop] at hres
      simp only [Except.ok.injEq, Prod.mk.injEq] at hres
      refine ⟨hres.2.symm, ?_⟩
      obtain ⟨r, hr, hnot⟩ := cutAtLastSlash_eq_ok hcut
      have hqD : (q.data ++ ['/']) <+: D.data := ⟨r, by rw [hr]; simp⟩
      have hlong : ∀ B : String, B ∈ h.objects → (B.data ++ ['/']) <+: D.data →
          B.length ≤ q.length := by
        intro B _ hBD
        obtain ⟨x, hx⟩ := hBD
        have hsplit : B.data ++ '/' :: x = q.data ++ '/' :: r := by
          rw [← hr, ← hx]; simp
        rcases cut_below hsplit hnot with h1 | h1
        · show B.data.length ≤ q.data.length
          rw [h1]
        · have := h1.length_le
          simp only [List.length_append, List.length_singleton] at this
          show B.data.length ≤ q.data.length
          omega
      rcases subtreeLoop_nearest h.objects D _ q m hqD hlong hloop with ⟨hm, hnone⟩ | ⟨A, oA, h1, h2, h3, h4, hm⟩
      · left
        exact ⟨by rw [← hres.1, hm], hnone⟩
      · right
        exact ⟨A, oA, h1, h2, h3, h4, by rw [← hres.1, hm]⟩

theorem data_append_slash (B : String) : (B ++ "/").data = B.data ++ ['/'] := by
  rw [String.data_append]

theorem copyFallback_eq_empty (o : exportedObj)
    (hflags : ∀ n t, o.interfaces.lookup n = some t → t.includeSubtree = false) :
    copyFallback o ∅ = ∅ := by
  have key : ∀ (l : List (Σ _ : String, exportedIntf)),
      (∀ e ∈ l, e.2.includeSubtree = false) →
      ∀ acc : GoMap exportedIntf,
        l.foldl (fun acc e => if e.2.isFallbackInterface then acc.insert e.1 e.2 else acc) acc
          = acc := by
    intro l
    induction l with
    | nil => intro _ acc; rfl
    | cons e rest ih =>
      intro hl acc
      have he : e.2.isFallbackInterface = false := hl e (List.mem_cons_self _ _)
      rw [List.foldl_cons]
      simp only [he, Bool.false_eq_true, if_false]
      exact ih (fun e2 h2 => hl e2 (List.mem_cons_of_mem _ h2)) acc
  unfold copyFallback
  apply key
  intro e he
  apply hflags e.1 e.2
  have hmem : (⟨e.1, e.2⟩ : Σ _ : String, exportedIntf) ∈ o.interfaces.entries := he
  exact AList.mem_lookup_iff.mpr hmem

theorem mergeDefaults_newHandler_empty :
    mergeDefaults newHandler.defaultIntf ∅ = newHandler.defaultIntf := by
  rfl

theorem lookup_newHandler_defaultIntf_ne {n : String} (hn : n ≠ introspectableName) :
    newHandler.defaultIntf.lookup n = none := by
  simp only [newHandler]
  rw [AList.lookup_insert_ne hn]
  rfl

theorem lookupInterface_of_lookup {o : exportedObj} {I : String} {t : exportedIntf}
    (hI0 : I ≠ "") (h : o.interfaces.lookup I = some t) :
    o.LookupInterface I = some (.intf t) := by
  simp only [exportedObj.LookupInterface, hI0, if_false, h, Option.map_some']

/-! ## The claims -/

/-- Claim C1, evaluated on the code.  In the registry made by `newHandler` the call
`("/a", "org.freedesktop.DBus.Introspectable", "Introspect")` resolves to a
binding whose `Call` returns no result and no error, for an empty argument list,
for a wrapped path argument, and for every argument list on which it returns
at all; the introspection document of `/a` is the string `<node>\n</node>`,
which `Call` never returns. -/
theorem C1_introspect_call_returns_no_document :
    (∃ m, newHandler.resolveMethod [] "/a" introspectableName "Introspect" = .ok (some m) ∧
      m.Call [] = .ok ([], .nil) ∧
      m.Call [.ptr (.str "/a")] = .ok ([], .nil) ∧
      (∀ args results err, m.Call args = .ok (results, err) → results = [] ∧ err = .nil)) ∧
    newHandler.introspectPath id "/a" = "<node>\n</node>" := by
  refine ⟨⟨_, rfl, rfl, rfl, ?_⟩, rfl⟩
  intro args results err hcall
  simp only [exportedMethod.Call] at hcall
  cases hu : unwrapArgs args with
  | error f => rw [hu] at hcall; simp at hcall
  | ok newArgs =>
    rw [hu] at hcall
    simp only [Except.ok.injEq, Prod.mk.injEq] at hcall
    exact ⟨hcall.1.symm, by rw [← hcall.2]; rfl⟩

/-- Claim C2 fails on exactly registered paths.  After `Export` of an interface
`com.example.Foo` at `/a` on a new handler, a reachable state, `LookupObject("/a")`
returns the stored node with `found = true`, and `LookupInterface` of
`org.freedesktop.DBus.Introspectable` on that node is not found. -/
theorem C2_counterexample :
    Reachable (newHandler.Export (some ∅) "/a" "com.example.Foo").1 ∧
    ∃ o, (newHandler.Export (some ∅) "/a" "com.example.Foo").1.LookupObject "/a"
        = .ok (.registered o, true) ∧
      (o.LookupInterface introspectableName).isNone = true := by
  refine ⟨Reachable.exported _ _ _ _ Reachable.init, _, rfl, rfl⟩

/-- Claim C2 as amended.  In every registry state reachable from `newHandler` by
`Export` and `DeleteObject`, whenever `LookupObject(P)` returns, `found` is
true; if `P` is not registered the returned node resolves
`org.freedesktop.DBus.Introspectable` to the built-in table; if `P` is
registered the returned node is `P`'s own node, which resolves that name
exactly to what `P` itself registered under it (not found when it registered
nothing under it). -/
theorem C2_default_interface_on_resolved_paths (h : Handler) (hr : Reachable h) (P : String)
    (node : ServerObject) (found : Bool) (hres : h.LookupObject P = .ok (node, found)) :
    found = true ∧
    (h.objects.lookup P = none →
      node.node.LookupInterface introspectableName = some (.intf newIntrospectIntf)) ∧
    (∀ o, h.objects.lookup P = some o →
      node = .registered o ∧
      node.node.LookupInterface introspectableName =
        (o.interfaces.lookup introspectableName).map Interface.intf) := by
  have hinv := reachable_invariant hr
  have hname : introspectableName ≠ "" := by decide
  unfold Handler.LookupObject at hres
  cases hreg : h.objects.lookup P with
  | some o =>
    rw [hreg] at hres
    simp only [Except.ok.injEq, Prod.mk.injEq] at hres
    refine ⟨hres.2.symm, by intro hc; simp at hc, ?_⟩
    intro o2 ho2
    simp only [Option.some.injEq] at ho2
    subst ho2
    refine ⟨hres.1.symm, ?_⟩
    rw [← hres.1]
    simp [ServerObject.node, exportedObj.LookupInterface, hname]
  | none =>
    rw [hreg] at hres
    simp only at hres
    cases hcut : cutAtLastSlash P with
    | error f => rw [hcut] at hres; simp at hres
    | ok shorter =>
      rw [hcut] at hres
      simp only at hres
      cases hloop : subtreeLoop h.objects shorter.length shorter with
      | error f => rw [hloop] at hres; simp at hres
      | ok m =>
        rw [hloop] at hres
        simp only [Except.ok.injEq, Prod.mk.injEq] at hres
        refine ⟨hres.2.symm, ?_, by intro o ho; simp at ho⟩
        intro _
        rw [← hres.1]
        simp only [ServerObject.node, exportedObj.LookupInterface, hname, if_false]
        rw [lookup_mergeDefaults]
        cases hm : m.lookup introspectableName with
        | some t =>
          obtain ⟨htrue, q, o, hq, ho⟩ :=
            subtreeLoop_sound h.objects _ _ m hloop introspectableName t hm
          have hfalse := hinv.2 q o introspectableName t hq ho
          rw [htrue] at hfalse
          exact absurd hfalse (by decide)
        | none =>
          simp only [hinv.1, lookup_newHandler_defaultIntf, Option.map_some']

/-- Witness for claim C2 as amended: the unregistered path `/a/b` on a new handler. -/
theorem C2_default_interface_on_resolved_paths_witness :
    true = true ∧
    (newHandler.objects.lookup "/a/b" = none →
      (ServerObject.synthesized { interfaces := newHandler.defaultIntf }).node.LookupInterface
        introspectableName = some (.intf newIntrospectIntf)) ∧
    (∀ o, newHandler.objects.lookup "/a/b" = some o →
      ServerObject.synthesized { interfaces := newHandler.defaultIntf } = .registered o ∧
      (ServerObject.synthesized { interfaces := newHandler.defaultIntf }).node.LookupInterface
        introspectableName = (o.interfaces.lookup introspectableName).map Interface.intf) :=
  C2_default_interface_on_resolved_paths newHandler Reachable.init "/a/b"
    (.synthesized { interfaces := newHandler.defaultIntf }) true rfl

/-- Claim C3 fails for the root.  The root `/` holds `com.example.I` with subtree
scope, `/a` is a strict descendant of `/`, neither `/a` nor any path between
is registered, and still the node `LookupObject("/a")` returns does not contain
`com.example.I`: the fallback loop stops at the empty path and never looks at `/`. -/
theorem C3_counterexample :
    (∃ oP, rootSubtreeState.objects.lookup "/" = some oP ∧
      oP.interfaces.lookup "com.example.I" = some subtreeTable) ∧
    subtreeTable.includeSubtree = true ∧
    StrictDescendant "/a" "/" ∧
    rootSubtreeState.objects.lookup "/a" = none ∧
    (∀ Q, StrictDescendant Q "/" → StrictDescendant "/a" Q →
      rootSubtreeState.objects.lookup Q = none) ∧
    ∃ node, rootSubtreeState.LookupObject "/a" = .ok (.synthesized node, true) ∧
      node.interfaces.lookup "com.example.I" = none := by
  refine ⟨⟨_, rfl, rfl⟩, rfl, by decide, rfl, ?_, _, rfl, rfl⟩
  intro Q hQ _
  have hne : Q ≠ "/" := hQ.2
  simp only [rootSubtreeState]
  rw [AList.lookup_insert_ne hne]
  rfl

/-- Claim C3 as amended.  For every registry state, every registered path `P`
other than the root `/` (and not the empty string) and every strict descendant
`D` of `P` such that neither `D` nor any path strictly between `P` and `D` is
registered, `LookupObject(D)` returns a synthesized node with `found = true`
that maps every interface name of `P`'s node whose table has `includeSubtree`
set to that same table. -/
theorem C3_subtree_interfaces_reach_descendants (h : Handler) (P D : String) (oP : exportedObj)
    (hP0 : P ≠ "") (hroot : P ≠ "/") (hreg : h.objects.lookup P = some oP)
    (hdesc : StrictDescendant D P) (hD : h.objects.lookup D = none)
    (hbetween : ∀ Q, StrictDescendant Q P → StrictDescendant D Q → h.objects.lookup Q = none) :
    ∃ node, h.LookupObject D = .ok (.synthesized node, true) ∧
      ∀ n t, oP.interfaces.lookup n = some t → t.includeSubtree = true →
        node.interfaces.lookup n = some t :=
  ⟨_, LookupObject_nearest h P D oP hP0 hroot hreg hdesc hD hbetween,
    fun n t hn ht => lookup_fallback_node h.defaultIntf oP n t hn ht⟩

/-- Witness for claim C3 as amended: `/a` with a subtree-scoped interface and its
descendant `/a/b/c`. -/
theorem C3_subtree_interfaces_reach_descendants_witness :
    ∃ node, subtreeState.LookupObject "/a/b/c" = .ok (.synthesized node, true) ∧
      ∀ n t,
        ({ interfaces := (∅ : GoMap exportedIntf).insert "com.example.I" subtreeTable } :
          exportedObj).interfaces.lookup n = some t →
        t.includeSubtree = true → node.interfaces.lookup n = some t :=
  C3_subtree_interfaces_reach_descendants subtreeState "/a" "/a/b/c" _ (by decide) (by decide)
    rfl (by decide) rfl (subtreeState_between "/a/b/c")

/-- Claim C4 fails in three ways.  First, `/a` holds `com.example.I` with subtree
scope and the closer ancestor `/a/b` is registered with `com.example.J` only:
the node `LookupObject("/a/b/c")` returns does not resolve `com.example.I`,
because the loop stops at `/a/b`.  Second, with `com.example.I` held by the root
`/` and nothing else registered, the node `LookupObject("/b")` returns does not
resolve it either.  Third, for the empty interface name: `/a` holds, with
subtree scope, a table under the name `""` and `com.example.J`, nothing else is
registered; on the node `LookupObject("/a/b")` returns, `LookupInterface("")`
gives the node itself, not the table of `/a`, and the call of `Ping` resolved
through it is answered by `com.example.J`'s binding. -/
theorem C4_counterexample :
    ((∃ oA, nestedState.objects.lookup "/a" = some oA ∧
        oA.interfaces.lookup "com.example.I" = some subtreeTable) ∧
      subtreeTable.includeSubtree = true ∧
      StrictDescendant "/a/b/c" "/a" ∧
      nestedState.objects.lookup "/a/b/c" = none ∧
      (∀ Q o, StrictDescendant Q "/a" → StrictDescendant "/a/b/c" Q →
        nestedState.objects.lookup Q = some o → o.interfaces.lookup "com.example.I" = none) ∧
      ∃ node, nestedState.LookupObject "/a/b/c" = .ok (.synthesized node, true) ∧
        node.interfaces.lookup "com.example.I" = none) ∧
    ((∃ oA, rootSubtreeState.objects.lookup "/" = some oA ∧
        oA.interfaces.lookup "com.example.I" = some subtreeTable) ∧
      StrictDescendant "/b" "/" ∧
      rootSubtreeState.objects.lookup "/b" = none ∧
      (∀ Q, StrictDescendant Q "/" → StrictDescendant "/b" Q →
        rootSubtreeState.objects.lookup Q = none) ∧
      ∃ node, rootSubtreeState.LookupObject "/b" = .ok (.synthesized node, true) ∧
        node.interfaces.lookup "com.example.I" = none) ∧
    ((∃ oA, emptyNameState.objects.lookup "/a" = some oA ∧
        oA.interfaces.lookup "" = some (pingSubtreeTable "empty")) ∧
      (pingSubtreeTable "empty").includeSubtree = true ∧
      StrictDescendant "/a/b" "/a" ∧
      emptyNameState.objects.lookup "/a/b" = none ∧
      (∀ Q, StrictDescendant Q "/a" → StrictDescendant "/a/b" Q →
        emptyNameState.objects.lookup Q = none) ∧
      ∃ node, emptyNameState.LookupObject "/a/b" = .ok (.synthesized node, true) ∧
        node.LookupInterface "" = some (.obj node) ∧
        node.interfaces.keys = [introspectableName, "com.example.J", ""] ∧
        ∃ m, emptyNameState.resolveMethod [introspectableName, "com.example.J", ""]
            "/a/b" "" "Ping" = .ok (some m) ∧
          m.Call [] = .ok ([.str "j"], .nil) ∧
          ∃ m2, (pingSubtreeTable "empty").LookupMethod "Ping" = some m2 ∧
            m2.Call [] = .ok ([.str "empty"], .nil)) := by
  refine ⟨⟨⟨_, rfl, rfl⟩, rfl, by decide, rfl, ?_, _, rfl, rfl⟩,
    ⟨⟨_, rfl, rfl⟩, by decide, rfl, ?_, _, rfl, rfl⟩,
    ⟨⟨_, rfl, rfl⟩, rfl, by decide, rfl, ?_, _, rfl, rfl, rfl, _, rfl, rfl, _, rfl, rfl⟩⟩
  · intro Q o hQ _ hreg
    have hne : Q ≠ "/a" := hQ.2
    simp only [nestedState, subtreeState] at hreg
    by_cases hab : Q = "/a/b"
    · subst hab
      rw [AList.lookup_insert] at hreg
      simp only [Option.some.injEq] at hreg
      subst hreg
      rfl
    · rw [AList.lookup_insert_ne hab, AList.lookup_insert_ne hne] at hreg
      simp at hreg
  · intro Q hQ _
    have hne : Q ≠ "/" := hQ.2
    simp only [rootSubtreeState]
    rw [AList.lookup_insert_ne hne]
    rfl
  · intro Q hQ _
    have hne : Q ≠ "/a" := hQ.2
    simp only [emptyNameState]
    rw [AList.lookup_insert_ne hne]
    rfl

/-- Claim C4 as amended.  For every registry state, every path `A` other than the
root `/` (and not empty) holding a subtree-scoped interface `I` whose name is
not empty, and every strict descendant `P` of `A` that is not registered: if no
path strictly between `A` and `P` is registered at all, `LookupObject(P)`
returns a node in which `I` resolves to `A`'s table: `LookupInterface(I)` on
the node is found and is that table, the entry the node holds under `I`. -/
theorem C4_nearest_registered_ancestor_resolves (h : Handler) (A P I : String) (oA : exportedObj)
    (t : exportedIntf) (hA0 : A ≠ "") (hroot : A ≠ "/") (hI0 : I ≠ "")
    (hreg : h.objects.lookup A = some oA)
    (hI : oA.interfaces.lookup I = some t) (ht : t.includeSubtree = true)
    (hdesc : StrictDescendant P A) (hP : h.objects.lookup P = none)
    (hbetween : ∀ Q, StrictDescendant Q A → StrictDescendant P Q → h.objects.lookup Q = none) :
    ∃ node, h.LookupObject P = .ok (.synthesized node, true) ∧
      node.LookupInterface I = some (.intf t) ∧
      node.interfaces.lookup I = some t :=
  ⟨_, LookupObject_nearest h A P oA hA0 hroot hreg hdesc hP hbetween,
    lookupInterface_of_lookup hI0 (lookup_fallback_node h.defaultIntf oA I t hI ht),
    lookup_fallback_node h.defaultIntf oA I t hI ht⟩

/-- Witness for claim C4 as amended: `/a` holding `com.example.I` and the path `/a/b`. -/
theorem C4_nearest_registered_ancestor_resolves_witness :
    ∃ node, subtreeState.LookupObject "/a/b" = .ok (.synthesized node, true) ∧
      node.LookupInterface "com.example.I" = some (.intf subtreeTable) ∧
      node.interfaces.lookup "com.example.I" = some subtreeTable :=
  C4_nearest_registered_ancestor_resolves subtreeState "/a" "/a/b" "com.example.I" _ subtreeTable
    (by decide) (by decide) (by decide) rfl rfl rfl (by decide) rfl (subtreeState_between "/a/b")

/-- Claim C5.  For every registry state (whose default tables are those installed
by `newHandler`, the only code that writes them) and every path `D` that is
not registered, every interface table of the node returned by `LookupObject(D)`
has `includeSubtree` set; hence no table stored at a registered path without
subtree scope is in that node. -/
theorem C5_fallback_node_holds_only_subtree_tables (h : Handler) (D : String)
    (node : ServerObject) (found : Bool)
    (hdef : h.defaultIntf = newHandler.defaultIntf)
    (hD : h.objects.lookup D = none)
    (hres : h.LookupObject D = .ok (node, found)) :
    (∀ n t, node.node.interfaces.lookup n = some t → t.includeSubtree = true) ∧
    (∀ P oP n t, h.objects.lookup P = some oP → oP.interfaces.lookup n = some t →
      t.includeSubtree = false → node.node.interfaces.lookup n ≠ some t) := by
  have main : ∀ n t, node.node.interfaces.lookup n = some t → t.includeSubtree = true := by
    unfold Handler.LookupObject at hres
    rw [hD] at hres
    simp only at hres
    cases hcut : cutAtLastSlash D with
    | error f => rw [hcut] at hres; simp at hres
    | ok shorter =>
      rw [hcut] at hres
      simp only at hres
      cases hloop : subtreeLoop h.objects shorter.length shorter with
      | error f => rw [hloop] at hres; simp at hres
      | ok m =>
        rw [hloop] at hres
        simp only [Except.ok.injEq, Prod.mk.injEq] at hres
        intro n t hn
        rw [← hres.1] at hn
        simp only [ServerObject.node] at hn
        rw [lookup_mergeDefaults] at hn
        cases hm : m.lookup n with
        | some t2 =>
          rw [hm] at hn
          simp only [Option.some.injEq] at hn
          subst hn
          exact (subtreeLoop_sound h.objects _ _ m hloop n t2 hm).1
        | none =>
          rw [hm, hdef] at hn
          simp only at hn
          by_cases hname : n = introspectableName
          · subst hname
            rw [lookup_newHandler_defaultIntf] at hn
            simp only [Option.some.injEq] at hn
            subst hn
            rfl
          · simp only [newHandler] at hn
            rw [AList.lookup_insert_ne hname] at hn
            simp at hn
  refine ⟨main, ?_⟩
  intro P oP n t _ _ hfalse hn
  have := main n t hn
  rw [hfalse] at this
  exact absurd this (by decide)

/-- Witness for claim C5: the unregistered path `/a/b/c` below `/a/b`, which holds
an interface without subtree scope. -/
theorem C5_fallback_node_holds_only_subtree_tables_witness :
    (∀ n t, (ServerObject.synthesized
        { interfaces := newHandler.defaultIntf }).node.interfaces.lookup n = some t →
      t.includeSubtree = true) ∧
    (∀ P oP n t, nestedState.objects.lookup P = some oP → oP.interfaces.lookup n = some t →
      t.includeSubtree = false →
      (ServerObject.synthesized
        { interfaces := newHandler.defaultIntf }).node.interfaces.lookup n ≠ some t) :=
  C5_fallback_node_holds_only_subtree_tables nestedState "/a/b/c"
    (.synthesized { interfaces := newHandler.defaultIntf }) true rfl rfl rfl

/-- Claim C6 fails in two ways.  First, for the nil method map: `/a` holds
`com.example.I` with subtree scope and `/a/b` is a valid strict descendant;
`Export(nil, "/a/b", "com.example.I")` returns no error and registers nothing,
so `LookupObject("/a/b")` still returns the synthesized node, in which
`com.example.I` is the table of `/a`, not a table built at `/a/b`.  Second, for
the empty interface name: `/a` holds a subtree-scoped table under the name `""`
and `/a/b` holds `com.example.J` with `Ping`; after `Export` of a new `Ping`
under `""` at `/a/b`, `LookupInterface("")` on the node of `/a/b` gives the node
itself, not the table built from the method map, and in the order that visits
`com.example.J` first the call of `Ping` is answered by the old binding. -/
theorem C6_counterexample :
    ((∃ oP, subtreeState.objects.lookup "/a" = some oP ∧
        oP.interfaces.lookup "com.example.I" = some subtreeTable) ∧
      subtreeTable.includeSubtree = true ∧
      IsValid "/a/b" = true ∧
      StrictDescendant "/a/b" "/a" ∧
      (subtreeState.Export none "/a/b" "com.example.I").2 = .nil ∧
      ∃ node, (subtreeState.Export none "/a/b" "com.example.I").1.LookupObject "/a/b"
          = .ok (.synthesized node, true) ∧
        node.interfaces.lookup "com.example.I" = some subtreeTable ∧
        subtreeTable ≠ newExportedIntf (exportMethods ∅) false) ∧
    ((∃ oP, (emptyNameState.Export (some (pingMethods (constHandler "old"))) "/a/b"
          "com.example.J").1.objects.lookup "/a" = some oP ∧
        oP.interfaces.lookup "" = some (pingSubtreeTable "empty")) ∧
      (pingSubtreeTable "empty").includeSubtree = true ∧
      IsValid "/a/b" = true ∧
      StrictDescendant "/a/b" "/a" ∧
      ∃ o, ((emptyNameState.Export (some (pingMethods (constHandler "old"))) "/a/b"
            "com.example.J").1.Export (some (pingMethods (constHandler "new"))) "/a/b"
            "").1.LookupObject "/a/b" = .ok (.registered o, true) ∧
        o.LookupInterface "" = some (.obj o) ∧
        ["com.example.J", ""].Perm o.interfaces.keys ∧
        ∃ m, ((emptyNameState.Export (some (pingMethods (constHandler "old"))) "/a/b"
              "com.example.J").1.Export (some (pingMethods (constHandler "new"))) "/a/b"
              "").1.resolveMethod ["com.example.J", ""] "/a/b" "" "Ping" = .ok (some m) ∧
          m.Call [] = .ok ([.str "old"], .nil) ∧
          constHandler "new" [] = .ok ([.str "new"], .nil)) := by
  refine ⟨⟨⟨_, rfl, rfl⟩, rfl, by decide, by decide, rfl, _, rfl, rfl, ?_⟩,
    ⟨⟨_, rfl, rfl⟩, rfl, by decide, by decide, _, rfl, rfl, ?_, _, rfl, rfl, rfl⟩⟩
  · intro hc
    have := congrArg exportedIntf.includeSubtree hc
    simp [subtreeTable, newExportedIntf] at this
  · exact List.Perm.swap _ _ _

/-- Claim C6 as amended.  For every registry state in which a path `P` holds
interface `I`, whose name is not empty, with subtree scope, every valid strict
descendant `D` of `P` and every non-nil method map `M` (the empty map
included): after `Export(M, D, I)`, `LookupObject(D)` returns `D`'s stored
node, in which `I` resolves to the table built from `M`: `LookupInterface(I)`
on the node is found and is that table (its methods are exactly the bindings
of `M`), and that table is not `P`'s table. -/
theorem C6_exact_registration_overrides_inherited (h : Handler) (P D I : String)
    (oP : exportedObj) (t : exportedIntf) (M : GoMap MethodItem) (hI0 : I ≠ "")
    (_hreg : h.objects.lookup P = some oP) (_hI : oP.interfaces.lookup I = some t)
    (ht : t.includeSubtree = true) (hv : IsValid D = true) (_hdesc : StrictDescendant D P) :
    ∃ o, (h.Export (some M) D I).1.LookupObject D = .ok (.registered o, true) ∧
      o.LookupInterface I = some (.intf (newExportedIntf (exportMethods M) false)) ∧
      o.interfaces.lookup I = some (newExportedIntf (exportMethods M) false) ∧
      (∀ n, (newExportedIntf (exportMethods M) false).LookupMethod n =
        (M.lookup n).map (fun item => { value := item.Value, fn := item.Fn })) ∧
      newExportedIntf (exportMethods M) false ≠ t := by
  have hentry : (((h.objects.lookup D).getD newExportedObject).AddInterface I
      (newExportedIntf (exportMethods M) false)).interfaces.lookup I =
      some (newExportedIntf (exportMethods M) false) := by
    simp only [exportedObj.AddInterface]
    exact AList.lookup_insert _
  refine ⟨_, LookupObject_registered _ D _ (lookup_export_objects h M D I hv),
    lookupInterface_of_lookup hI0 hentry, hentry, ?_, ?_⟩
  · intro n
    simp only [exportedIntf.LookupMethod, newExportedIntf]
    exact lookup_exportMethods M n
  · intro hc
    have := congrArg exportedIntf.includeSubtree hc
    rw [ht] at this
    simp [newExportedIntf] at this

/-- Witness for claim C6 as amended: the empty non-nil method map exported at
`/a/b` below `/a`. -/
theorem C6_exact_registration_overrides_inherited_witness :
    ∃ o, (subtreeState.Export (some ∅) "/a/b" "com.example.I").1.LookupObject "/a/b"
        = .ok (.registered o, true) ∧
      o.LookupInterface "com.example.I" =
        some (.intf (newExportedIntf (exportMethods ∅) false)) ∧
      o.interfaces.lookup "com.example.I" = some (newExportedIntf (exportMethods ∅) false) ∧
      (∀ n, (newExportedIntf (exportMethods ∅) false).LookupMethod n =
        ((∅ : GoMap MethodItem).lookup n).map
          (fun item => { value := item.Value, fn := item.Fn })) ∧
      newExportedIntf (exportMethods ∅) false ≠ subtreeTable :=
  C6_exact_registration_overrides_inherited subtreeState "/a" "/a/b" "com.example.I" _
    subtreeTable ∅ (by decide) rfl rfl rfl (by decide) (by decide)

/-- Claim C7 fails in two ways.  First, for the empty interface name: with `Ping`
already exported at `/a` under `com.example.J`, after `Export` of a new `Ping`
under the name `""` the lookup through `LookupInterface("")` searches all
interfaces of the node, and in the order that visits `com.example.J` first it
finds the old binding, whose `Call` answers `old` where the supplied function
answers `new`.  Second, for a function that returns a nil `*dbus.Error`: `Call`
returns a nil error where the function returns the typed nil. -/
theorem C7_counterexample :
    (IsValid "/a" = true ∧
      (pingMethods (constHandler "new")).lookup "Ping" =
        some { Value := .func [] [.string, .busErrorPtr], Fn := constHandler "new" } ∧
      (∃ o, (((newHandler.Export (some (pingMethods (constHandler "old"))) "/a"
            "com.example.J").1.Export (some (pingMethods (constHandler "new"))) "/a" "").1
            ).LookupObject "/a" = .ok (.registered o, true) ∧
          ["com.example.J", ""].Perm o.interfaces.keys) ∧
      ∃ m, (((newHandler.Export (some (pingMethods (constHandler "old"))) "/a"
            "com.example.J").1.Export (some (pingMethods (constHandler "new"))) "/a" "").1
            ).resolveMethod ["com.example.J", ""] "/a" "" "Ping" = .ok (some m) ∧
        m.Call [] = .ok ([.str "old"], .nil) ∧
        constHandler "new" [] = .ok ([.str "new"], .nil)) ∧
    (∃ m, (newHandler.Export (some (pingMethods typedNilHandler)) "/a"
          "com.example.J").1.resolveMethod [] "/a" "com.example.J" "Ping" = .ok (some m) ∧
        m.Call [.ptr (.str "x")] = .ok ([.str "x"], .nil) ∧
        typedNilHandler [.str "x"] = .ok ([.str "x"], .busError none)) := by
  refine ⟨⟨by decide, rfl, ⟨_, rfl, ?_⟩, _, rfl, rfl, rfl⟩, _, rfl, rfl, rfl⟩
  exact List.Perm.swap _ _ _

/-- Claim C7 as amended.  For every registry state, valid path `P`, non-empty
interface name `I`, method map `M` and method name `n` of `M`: after
`Export(M, P, I)`, `LookupObject(P)`, `LookupInterface(I)` and `LookupMethod(n)`
find a binding, and calling it with arguments each wrapped in a pointer gives
what `M[n].Fn` gives on the unwrapped arguments, with a nil `*dbus.Error`
replaced by a nil error; whenever the function's error is not such a typed nil
the outcome is exactly the function's. -/
theorem C7_export_lookup_call_round_trip (h : Handler) (P I n : String) (M : GoMap MethodItem)
    (item : MethodItem) (order : List String) (args : List GoValue)
    (hv : IsValid P = true) (hI : I ≠ "") (hn : M.lookup n = some item) :
    ∃ o intf m,
      (h.Export (some M) P I).1.LookupObject P = .ok (.registered o, true) ∧
      o.LookupInterface I = some intf ∧
      intf.LookupMethod order n = some m ∧
      (h.Export (some M) P I).1.resolveMethod order P I n = .ok (some m) ∧
      m.Call (args.map GoValue.ptr) =
        (match item.Fn args with
          | .error f => .error f
          | .ok (results, err) => .ok (results, normalizeError err)) ∧
      (∀ results err, item.Fn args = .ok (results, err) → err ≠ .busError none →
        m.Call (args.map GoValue.ptr) = .ok (results, err)) := by
  have hobj := LookupObject_registered _ P _ (lookup_export_objects h M P I hv)
  have hintf : (((h.objects.lookup P).getD newExportedObject).AddInterface I
      (newExportedIntf (exportMethods M) false)).LookupInterface I =
      some (.intf (newExportedIntf (exportMethods M) false)) := by
    simp only [exportedObj.LookupInterface, hI, if_false, exportedObj.AddInterface]
    rw [AList.lookup_insert]
    rfl
  have hmeth : (Interface.intf (newExportedIntf (exportMethods M) false)).LookupMethod order n =
      some ⟨item.Value, item.Fn⟩ := by
    simp only [Interface.LookupMethod, exportedIntf.LookupMethod, newExportedIntf]
    rw [lookup_exportMethods, hn]
    rfl
  refine ⟨_, _, _, hobj, hintf, hmeth, ?_, call_exported item args, ?_⟩
  · unfold Handler.resolveMethod
    rw [hobj]
    simp only [ServerObject.node, hintf]
    exact congrArg Except.ok hmeth
  · intro results err hfn hne
    rw [call_exported, hfn]
    simp only [normalizeError_of_ne hne]

/-- Witness for claim C7 as amended: `Ping` exported at `/a` under `com.example.J`. -/
theorem C7_export_lookup_call_round_trip_witness :
    ∃ o intf m,
      (newHandler.Export (some (pingMethods (constHandler "pong"))) "/a"
        "com.example.J").1.LookupObject "/a" = .ok (.registered o, true) ∧
      o.LookupInterface "com.example.J" = some intf ∧
      intf.LookupMethod [] "Ping" = some m ∧
      (newHandler.Export (some (pingMethods (constHandler "pong"))) "/a"
        "com.example.J").1.resolveMethod [] "/a" "com.example.J" "Ping" = .ok (some m) ∧
      m.Call ([GoValue.int 1].map GoValue.ptr) =
        (match constHandler "pong" [GoValue.int 1] with
          | .error f => .error f
          | .ok (results, err) => .ok (results, normalizeError err)) ∧
      (∀ results err, constHandler "pong" [GoValue.int 1] = .ok (results, err) →
        err ≠ .busError none →
        m.Call ([GoValue.int 1].map GoValue.ptr) = .ok (results, err)) :=
  C7_export_lookup_call_round_trip newHandler "/a" "com.example.J" "Ping"
    (pingMethods (constHandler "pong"))
    { Value := .func [] [.string, .busErrorPtr], Fn := constHandler "pong" } []
    [GoValue.int 1] (by decide) (by decide) rfl

/-- Claim C8 fails for the nil method map: `Export(nil, "/a", "com.example.I")` on
a new handler returns no error for the valid path `/a`, and afterwards `/a` is
not registered. -/
theorem C8_counterexample :
    IsValid "/a" = true ∧
    (newHandler.Export none "/a" "com.example.I").2 = .nil ∧
    (newHandler.Export none "/a" "com.example.I").1.PathExists "/a" = false ∧
    (newHandler.Export none "/a" "com.example.I").1.objects.lookup "/a" = none := by
  refine ⟨by decide, rfl, rfl, rfl⟩

/-- Claim C8 as amended.  For every registry state, path `P`, interface name `I`
and non-nil method map `M`: whenever `Export(M, P, I)` returns no error, `P` is
valid and afterwards registered, `I` at `P`'s node is a table without subtree
scope whose methods are exactly the bindings of `M` (nothing of an earlier
table is left), every other interface name at `P` maps to what it mapped to
before (nothing, if `P` was not registered), every other path maps to the
node it mapped to before, and the default tables are unchanged. -/
theorem C8_export_installs_table (h : Handler) (M : GoMap MethodItem) (P I : String)
    (hok : (h.Export (some M) P I).2 = .nil) :
    IsValid P = true ∧
    (h.Export (some M) P I).1.PathExists P = true ∧
    (∃ o tbl, (h.Export (some M) P I).1.objects.lookup P = some o ∧
      o.interfaces.lookup I = some tbl ∧
      tbl.includeSubtree = false ∧
      (∀ n, tbl.LookupMethod n =
        (M.lookup n).map (fun item => { value := item.Value, fn := item.Fn })) ∧
      (∀ n, (tbl.LookupMethod n).isSome = (M.lookup n).isSome) ∧
      (∀ J, J ≠ I → o.interfaces.lookup J =
        ((h.objects.lookup P).getD newExportedObject).interfaces.lookup J)) ∧
    (∀ Q, Q ≠ P → (h.Export (some M) P I).1.objects.lookup Q = h.objects.lookup Q) ∧
    (h.Export (some M) P I).1.defaultIntf = h.defaultIntf := by
  have hv : IsValid P = true := (export_error_nil_iff h (some M) P I).mp hok
  have hobj := lookup_export_objects h M P I hv
  have hmeth : ∀ n, (newExportedIntf (exportMethods M) false).LookupMethod n =
      (M.lookup n).map (fun item => { value := item.Value, fn := item.Fn }) := by
    intro n
    simp only [exportedIntf.LookupMethod, newExportedIntf]
    exact lookup_exportMethods M n
  refine ⟨hv, ?_, ⟨_, _, hobj, ?_, rfl, hmeth, ?_, ?_⟩, ?_, ?_⟩
  · simp only [Handler.PathExists, hobj, Option.isSome_some]
  · simp only [exportedObj.AddInterface]
    exact AList.lookup_insert _
  · intro n
    rw [hmeth n]
    cases M.lookup n <;> rfl
  · intro J hJ
    simp only [exportedObj.AddInterface]
    exact AList.lookup_insert_ne hJ
  · intro Q hQ
    unfold Handler.Export
    rw [export_valid h M P I hv]
    exact AList.lookup_insert_ne hQ
  · unfold Handler.Export
    rw [export_valid h M P I hv]

/-- Witness for claim C8 as amended: `Ping` exported at `/a` on a new handler. -/
theorem C8_export_installs_table_witness :
    IsValid "/a" = true ∧
    (newHandler.Export (some (pingMethods (constHandler "pong"))) "/a"
      "com.example.I").1.PathExists "/a" = true ∧
    (∃ o tbl, (newHandler.Export (some (pingMethods (constHandler "pong"))) "/a"
        "com.example.I").1.objects.lookup "/a" = some o ∧
      o.interfaces.lookup "com.example.I" = some tbl ∧
      tbl.includeSubtree = false ∧
      (∀ n, tbl.LookupMethod n =
        ((pingMethods (constHandler "pong")).lookup n).map
          (fun item => { value := item.Value, fn := item.Fn })) ∧
      (∀ n, (tbl.LookupMethod n).isSome = ((pingMethods (constHandler "pong")).lookup n).isSome) ∧
      (∀ J, J ≠ "com.example.I" → o.interfaces.lookup J =
        ((newHandler.objects.lookup "/a").getD newExportedObject).interfaces.lookup J)) ∧
    (∀ Q, Q ≠ "/a" →
      (newHandler.Export (some (pingMethods (constHandler "pong"))) "/a"
        "com.example.I").1.objects.lookup Q = newHandler.objects.lookup Q) ∧
    (newHandler.Export (some (pingMethods (constHandler "pong"))) "/a"
      "com.example.I").1.defaultIntf = newHandler.defaultIntf :=
  C8_export_installs_table newHandler (pingMethods (constHandler "pong")) "/a" "com.example.I" rfl

/-- Claim C9.  For every registry state, methods argument, path and interface
name, `Export` returns an error exactly when the path fails `IsValid`, and
whenever it returns an error the registry is the one before the call. -/
theorem C9_export_error_iff_invalid_path (h : Handler) (methods : Option (GoMap MethodItem))
    (path iface : String) :
    ((h.Export methods path iface).2 ≠ .nil ↔ IsValid path = false) ∧
    ((h.Export methods path iface).2 ≠ .nil → (h.Export methods path iface).1 = h) := by
  have hiff := export_error_nil_iff h methods path iface
  constructor
  · rw [Ne, hiff]
    cases IsValid path <;> simp
  · intro hne
    have hv : IsValid path = false := by
      cases hval : IsValid path with
      | false => rfl
      | true => exact absurd (hiff.mpr hval) hne
    unfold Handler.Export
    rw [export_invalid h methods path iface hv]

/-- Claim C10 fails in two ways.  First, for the empty interface name: `/a` holds,
with subtree scope, a table under the name `""` and `com.example.J`, and its
child `/a/b` is registered; after `DeleteObject("/a/b")`, on the node
`LookupObject("/a/b")` returns, `LookupInterface("")` gives the node itself, not
the table of `/a`, and the call of `Ping` resolved through it is answered by
`com.example.J`'s binding.  Second, for the empty path, which is not the root:
it holds `com.example.I` with subtree scope and `"" + "/" + "b"` is registered;
after `DeleteObject("/b")` the node `LookupObject("/b")` returns does not
resolve `com.example.I`, because the loop stops at the empty path. -/
theorem C10_counterexample :
    ((∃ oA, emptyNameNestedState.objects.lookup "/a" = some oA ∧
        oA.interfaces.lookup "" = some (pingSubtreeTable "empty")) ∧
      (pingSubtreeTable "empty").includeSubtree = true ∧
      "/a" ≠ "/" ∧
      (emptyNameNestedState.objects.lookup ("/a" ++ "/" ++ "b")).isSome = true ∧
      ∃ node, (emptyNameNestedState.DeleteObject ("/a" ++ "/" ++ "b")).LookupObject
          ("/a" ++ "/" ++ "b") = .ok (.synthesized node, true) ∧
        node.LookupInterface "" = some (.obj node) ∧
        node.interfaces.keys = [introspectableName, "com.example.J", ""] ∧
        ∃ m, (emptyNameNestedState.DeleteObject ("/a" ++ "/" ++ "b")).resolveMethod
            [introspectableName, "com.example.J", ""] ("/a" ++ "/" ++ "b") "" "Ping"
              = .ok (some m) ∧
          m.Call [] = .ok ([.str "j"], .nil) ∧
          ∃ m2, (pingSubtreeTable "empty").LookupMethod "Ping" = some m2 ∧
            m2.Call [] = .ok ([.str "empty"], .nil)) ∧
    ((∃ oA, emptyPathState.objects.lookup "" = some oA ∧
        oA.interfaces.lookup "com.example.I" = some subtreeTable) ∧
      subtreeTable.includeSubtree = true ∧
      "" ≠ "/" ∧
      (emptyPathState.objects.lookup ("" ++ "/" ++ "b")).isSome = true ∧
      ∃ node, (emptyPathState.DeleteObject ("" ++ "/" ++ "b")).LookupObject ("" ++ "/" ++ "b")
          = .ok (.synthesized node, true) ∧
        node.interfaces.lookup "com.example.I" = none ∧
        (node.LookupInterface "com.example.I").isNone = true) := by
  refine ⟨⟨⟨_, rfl, rfl⟩, rfl, by decide, rfl, _, rfl, rfl, rfl, _, rfl, rfl, _, rfl, rfl⟩,
    ⟨⟨_, rfl, rfl⟩, rfl, by decide, rfl, _, rfl, rfl, rfl⟩⟩

/-- Claim C10 as amended.  For every registry state in which a non-empty path `A`
holds interface `I`, whose name is not empty, with subtree scope and
`P = A + "/" + segment` (the segment without `/`) is registered too: before the
deletion `LookupObject(P)` returns `P`'s stored node; after `DeleteObject(P)`
it returns, with `found = true`, a synthesized node, which is not `P`'s former
node, whose interfaces are the subtree-scoped ones of `A` and the defaults, and
in which `I` resolves to `A`'s table: `LookupInterface(I)` on the node is
found and is that table. -/
theorem C10_delete_falls_back_to_parent (h : Handler) (A seg I : String) (oA oP : exportedObj)
    (t : exportedIntf) (hA : A ≠ "") (hI0 : I ≠ "") (hseg : '/' ∉ seg.data)
    (hregA : h.objects.lookup A = some oA) (hI : oA.interfaces.lookup I = some t)
    (ht : t.includeSubtree = true)
    (hregP : h.objects.lookup (A ++ "/" ++ seg) = some oP) :
    h.LookupObject (A ++ "/" ++ seg) = .ok (.registered oP, true) ∧
    ∃ node, (h.DeleteObject (A ++ "/" ++ seg)).LookupObject (A ++ "/" ++ seg)
        = .ok (.synthesized node, true) ∧
      ServerObject.synthesized node ≠ ServerObject.registered oP ∧
      node.interfaces = mergeDefaults h.defaultIntf (copyFallback oA ∅) ∧
      node.LookupInterface I = some (.intf t) ∧
      node.interfaces.lookup I = some t := by
  have hdata : (A ++ "/" ++ seg).data = A.data ++ '/' :: seg.data := by
    simp [String.data_append]
  have hne : A ≠ A ++ "/" ++ seg := by
    intro hc
    have := congrArg (fun s : String => s.data.length) hc
    simp only [hdata, List.length_append, List.length_cons] at this
    omega
  have hregA2 : (h.DeleteObject (A ++ "/" ++ seg)).objects.lookup A = some oA := by
    simp only [Handler.DeleteObject]
    rw [AList.lookup_erase_ne hne]
    exact hregA
  have hnone : (h.DeleteObject (A ++ "/" ++ seg)).objects.lookup (A ++ "/" ++ seg) = none := by
    simp only [Handler.DeleteObject]
    exact AList.lookup_erase _ _
  have hpre : (A.data ++ ['/']) <+: (A ++ "/" ++ seg).data := ⟨seg.data, by rw [hdata]; simp⟩
  have hfall := LookupObject_fallback (h.DeleteObject (A ++ "/" ++ seg)) A (A ++ "/" ++ seg) oA
    hA hregA2 hpre hnone (by
      intro Q hQ1 hQ2
      exfalso
      obtain ⟨r1, hr1⟩ := hQ1
      obtain ⟨r2, hr2⟩ := hQ2
      rw [hdata, ← hr1] at hr2
      have hseg2 : seg.data = r1 ++ '/' :: r2 := by
        have : A.data ++ ('/' :: (r1 ++ '/' :: r2)) = A.data ++ '/' :: seg.data := by
          rw [← hr2]; simp
        exact (List.cons.inj (List.append_cancel_left this)).2.symm
      exact hseg (by rw [hseg2]; simp))
  exact ⟨LookupObject_registered h _ oP hregP, _, hfall, (fun hc => by cases hc), rfl,
    lookupInterface_of_lookup hI0 (lookup_fallback_node _ oA I t hI ht),
    lookup_fallback_node _ oA I t hI ht⟩

/-- Witness for claim C10 as amended: `/a` holding `com.example.I` with subtree scope, and
its registered child `/a/b`. -/
theorem C10_delete_falls_back_to_parent_witness :
    nestedState.LookupObject ("/a" ++ "/" ++ "b") = .ok (.registered
      { interfaces := (∅ : GoMap exportedIntf).insert "com.example.J" (newExportedIntf ∅ false) },
      true) ∧
    ∃ node, (nestedState.DeleteObject ("/a" ++ "/" ++ "b")).LookupObject ("/a" ++ "/" ++ "b")
        = .ok (.synthesized node, true) ∧
      ServerObject.synthesized node ≠ ServerObject.registered
        { interfaces := (∅ : GoMap exportedIntf).insert "com.example.J"
            (newExportedIntf ∅ false) } ∧
      node.interfaces = mergeDefaults nestedState.defaultIntf
        (copyFallback
          { interfaces := (∅ : GoMap exportedIntf).insert "com.example.I" subtreeTable } ∅) ∧
      node.LookupInterface "com.example.I" = some (.intf subtreeTable) ∧
      node.interfaces.lookup "com.example.I" = some subtreeTable :=
  C10_delete_falls_back_to_parent nestedState "/a" "b" "com.example.I" _ _ subtreeTable
    (by decide) (by decide) (by decide) rfl rfl rfl rfl

/-- Claim C11.  For every registry state, every path and every order in which Go
may range over the set of child names, `introspectPath` returns `<node>`, then
one line `\n\t<node name="C"/>` for each child name `C`, then `\n</node>`; the
names listed are pairwise distinct, and they are exactly the names derived from
the registered paths that start with the path's child prefix, however many
registered paths share a name. -/
theorem C11_introspect_document_shape (h : Handler) (order : List String → List String)
    (path : String) (horder : ∀ l, (order l).Perm l) :
    ∃ names : List String,
      h.introspectPath order path = "<node>" ++ childLines names ++ "\n</node>" ∧
      names.Nodup ∧
      ∀ n, n ∈ names ↔
        ∃ obj, obj ∈ h.objects ∧ (childPrefix path).data <+: obj.data ∧
          n = childName path obj := by
  refine ⟨order (subpaths h path).keys, introspectPath_eq h order path, ?_, ?_⟩
  · exact (horder _).nodup_iff.mpr (subpaths h path).keys_nodup
  · intro n
    rw [(horder _).mem_iff, ← AList.mem_keys, mem_subpaths]

/-- Witness for claim C11: with registrations at `/a/b`, `/a/b/c` and `/a/b/c/d`
the document of `/a` is `<node>\n\t<node name="b"/>\n</node>` and the document of
`/a/b` lists the one child `c`, in every iteration order. -/
theorem C11_introspect_document_shape_witness :
    (∃ names : List String,
      chainState.introspectPath id "/a" = "<node>" ++ childLines names ++ "\n</node>" ∧
      names.Nodup ∧
      ∀ n, n ∈ names ↔
        ∃ obj, obj ∈ chainState.objects ∧ (childPrefix "/a").data <+: obj.data ∧
          n = childName "/a" obj) ∧
    chainState.objects.keys = ["/a/b/c/d", "/a/b/c", "/a/b"] ∧
    chainState.introspectPath id "/a" = "<node>\n\t<node name=\"b\"/>\n</node>" ∧
    chainState.introspectPath id "/a/b" = "<node>\n\t<node name=\"c\"/>\n</node>" ∧
    (∀ order : List String → List String, (∀ l, (order l).Perm l) →
      chainState.introspectPath order "/a" = "<node>\n\t<node name=\"b\"/>\n</node>" ∧
      chainState.introspectPath order "/a/b" = "<node>\n\t<node name=\"c\"/>\n</node>") := by
  refine ⟨C11_introspect_document_shape chainState id "/a" (fun l => List.Perm.refl l),
    rfl, rfl, rfl, ?_⟩
  intro order horder
  have hb : (subpaths chainState "/a").keys = ["b"] := rfl
  have hc : (subpaths chainState "/a/b").keys = ["c"] := rfl
  rw [introspectPath_eq, introspectPath_eq, hb, hc,
    List.perm_singleton.mp (horder ["b"]), List.perm_singleton.mp (horder ["c"])]
  exact ⟨rfl, rfl⟩

/-- Claim C12, evaluated on the code.  With the root `/` registered (a reachable
state whose registered paths are all valid) and no strict descendant of `/`
registered, `introspectPath("/")` lists one child, with the empty name: the
document is `<node>\n\t<node name=""/>\n</node>` in every iteration order.  Apart
from a registered root asked about itself the claim holds: for valid registered
paths and a valid path `Q`, the names listed are exactly the first segments,
after `Q`, of the registered strict descendants of `Q`, each a non-empty
segment without `/`; and `/abcd` does not start with the child prefix of `/ab`. -/
theorem C12_root_lists_itself_as_child :
    (Reachable rootRegisteredState ∧
      IsValid "/" = true ∧
      (∀ p, p ∈ rootRegisteredState.objects → IsValid p = true) ∧
      (∀ obj, obj ∈ rootRegisteredState.objects → ¬ StrictDescendant obj "/") ∧
      (subpaths rootRegisteredState "/").keys = [""] ∧
      (∀ order : List String → List String, (∀ l, (order l).Perm l) →
        rootRegisteredState.introspectPath order "/" = "<node>\n\t<node name=\"\"/>\n</node>")) ∧
    (∀ (h : Handler) (Q : String), (∀ p, p ∈ h.objects → IsValid p = true) → IsValid Q = true →
      (Q ≠ "/" ∨ "/" ∉ h.objects) →
      ∀ n, n ∈ subpaths h Q ↔
        ∃ obj, obj ∈ h.objects ∧ StrictDescendant obj Q ∧ n = childName Q obj) ∧
    (∀ (h : Handler) (Q : String), (∀ p, p ∈ h.objects → IsValid p = true) → IsValid Q = true →
      (Q ≠ "/" ∨ "/" ∉ h.objects) →
      ∀ n, n ∈ subpaths h Q → n.data ≠ [] ∧ '/' ∉ n.data) ∧
    ¬ (childPrefix "/ab").data <+: ("/abcd" : String).data := by
  have hkeys : rootRegisteredState.objects.keys = ["/"] := rfl
  have hmemroot : ∀ p, p ∈ rootRegisteredState.objects → p = "/" := by
    intro p hp
    rw [AList.mem_keys, hkeys] at hp
    simpa using hp
  have hdesc : ∀ (h : Handler) (Q : String), (Q ≠ "/" ∨ "/" ∉ h.objects) →
      ∀ obj, obj ∈ h.objects →
        (StrictDescendant obj Q ↔ (childPrefix Q).data <+: obj.data) := by
    intro h Q hroot obj hobj
    apply strictDescendant_iff_starts
    rcases hroot with h1 | h1
    · exact Or.inl h1
    · right
      intro hc
      exact h1 (hc ▸ hobj)
  refine ⟨⟨Reachable.exported _ _ _ _ Reachable.init, by decide, ?_, ?_, rfl, ?_⟩, ?_, ?_, by decide⟩
  · intro p hp
    rw [hmemroot p hp]
    decide
  · intro obj hobj hd
    exact hd.2 (hmemroot obj hobj)
  · intro order horder
    have hk : (subpaths rootRegisteredState "/").keys = [""] := rfl
    rw [introspectPath_eq, hk, List.perm_singleton.mp (horder [""])]
    rfl
  · intro h Q _ _ hroot n
    rw [mem_subpaths]
    constructor
    · rintro ⟨obj, hobj, hpre, hn⟩
      exact ⟨obj, hobj, (hdesc h Q hroot obj hobj).mpr hpre, hn⟩
    · rintro ⟨obj, hobj, hd, hn⟩
      exact ⟨obj, hobj, hd.1, hn⟩
  · intro h Q hvalid hQ hroot n hn
    rw [mem_subpaths] at hn
    obtain ⟨obj, hobj, hpre, hname⟩ := hn
    have hd := (hdesc h Q hroot obj hobj).mpr hpre
    rw [hname]
    exact childName_nonempty hQ (hvalid obj hobj) hpre hd.2

/-- Claim C13.  For every method binding and every argument list that `Call`
unwraps and on whose unwrapped arguments the handler function returns
`(results, err)`: `Call` returns those same results; the error it returns is
nil when `err` is a `*dbus.Error` whose pointer is nil, and is `err` itself in
every other case. -/
theorem C13_call_passes_results_and_error (m : exportedMethod) (args newArgs : List GoValue)
    (results : List GoValue) (err : GoError)
    (hu : unwrapArgs args = .ok newArgs) (hf : m.fn newArgs = .ok (results, err)) :
    ∃ err2, m.Call args = .ok (results, err2) ∧
      (err = .busError none → err2 = .nil) ∧
      (err ≠ .busError none → err2 = err) := by
  refine ⟨normalizeError err, ?_, ?_, ?_⟩
  · unfold exportedMethod.Call
    rw [hu]
    simp only [hf]
  · intro he
    rw [he]
    rfl
  · exact normalizeError_of_ne

/-- Witness for claim C13: a handler that returns a nil `*dbus.Error`; and the
evaluation of `Call` for a nil error, a generic error and a non-nil bus error. -/
theorem C13_call_passes_results_and_error_witness :
    (∃ err2, (⟨.func [.string] [.string, .busErrorPtr], typedNilHandler⟩ : exportedMethod).Call
        [.ptr (.str "x")] = .ok ([.str "x"], err2) ∧
      (GoError.busError none = .busError none → err2 = .nil) ∧
      (GoError.busError none ≠ .busError none → err2 = .busError none)) ∧
    oneStringMethod.Call [.ptr (.str "x")] = .ok ([.str "pong"], .nil) ∧
    (⟨.func [] [], fun _ => .ok ([], .other "boom")⟩ : exportedMethod).Call [] =
      .ok ([], .other "boom") ∧
    (⟨.func [] [], fun _ => .ok ([], .busError (some ⟨"com.example.Failed", []⟩))⟩ :
      exportedMethod).Call [] = .ok ([], .busError (some ⟨"com.example.Failed", []⟩)) :=
  ⟨C13_call_passes_results_and_error ⟨.func [.string] [.string, .busErrorPtr], typedNilHandler⟩
    [.ptr (.str "x")] [.str "x"] [.str "x"] (.busError none) rfl rfl, rfl, rfl, rfl⟩

/-- Claim C14 fails.  For a binding whose function takes one string, `Call` with
no argument, with two arguments and with a pointer to an integer runs the
handler and returns its answer with a nil error; `Call` with a string that is
not wrapped in a pointer, with a nil pointer or with a nil interface does not
return normally: it faults. -/
theorem C14_counterexample :
    oneStringMethod.NumArguments = .ok 1 ∧
    oneStringMethod.Call [] = .ok ([.str "pong"], .nil) ∧
    oneStringMethod.Call [.ptr (.str "a"), .ptr (.str "b")] = .ok ([.str "pong"], .nil) ∧
    oneStringMethod.Call [.ptr (.int 3)] = .ok ([.str "pong"], .nil) ∧
    oneStringMethod.Call [.str "a"] = .error .reflectElem ∧
    oneStringMethod.Call [.nilPtr] = .error .reflectInterface ∧
    oneStringMethod.Call [.nil] = .error .reflectElem := by
  refine ⟨rfl, rfl, rfl, rfl, rfl, rfl, rfl⟩

/-- Claim C14 as amended.  For every method binding and every argument list whose
elements are all pointers to values, `Call` runs the handler on the unwrapped
arguments and returns normally exactly when the handler does, with the
handler's results and its error (a nil `*dbus.Error` replaced by nil); the
outcome does not depend on the binding's reflected signature, so neither the
number nor the types of the arguments are checked and `Call` returns no
invocation error of its own. -/
theorem C14_call_checks_neither_arity_nor_type (m : exportedMethod) (vs : List GoValue) :
    (m.Call (vs.map GoValue.ptr) =
      match m.fn vs with
      | .error f => .error f
      | .ok (results, err) => .ok (results, normalizeError err)) ∧
    (∀ results err, m.fn vs = .ok (results, err) →
      m.Call (vs.map GoValue.ptr) = .ok (results, normalizeError err)) ∧
    (∀ value2 : ReflectValue,
      (⟨value2, m.fn⟩ : exportedMethod).Call (vs.map GoValue.ptr) =
        m.Call (vs.map GoValue.ptr)) := by
  refine ⟨call_of_unwrapped m vs, ?_, ?_⟩
  · intro results err hfn
    rw [call_of_unwrapped, hfn]
  · intro value2
    rw [call_of_unwrapped, call_of_unwrapped]

/-- Claim C16.  For every object node, every method name `n` and every order in
which Go may range over the node's interfaces: `LookupInterface("")` returns
the node itself, found; the node's `LookupMethod(n)` is found exactly when some
interface of the node has a method named `n`; and a binding it returns is the
binding for `n` in one of the node's interfaces. -/
theorem C16_empty_name_searches_all_interfaces (obj : exportedObj) (order : List String)
    (n : String) (horder : order.Perm obj.interfaces.keys) :
    obj.LookupInterface "" = some (.obj obj) ∧
    ((obj.LookupMethod order n).isSome = true ↔
      ∃ k t, obj.interfaces.lookup k = some t ∧ (t.LookupMethod n).isSome = true) ∧
    (∀ m, obj.LookupMethod order n = some m →
      ∃ k t, obj.interfaces.lookup k = some t ∧ t.LookupMethod n = some m) ∧
    (Interface.obj obj).LookupMethod order n = obj.LookupMethod order n := by
  refine ⟨rfl, ⟨?_, ?_⟩, ?_, rfl⟩
  · intro hsome
    cases hm : obj.LookupMethod order n with
    | none => rw [hm] at hsome; simp at hsome
    | some m =>
      obtain ⟨k, _, t, ht, htm⟩ := lookupMethod_some hm
      exact ⟨k, t, ht, by rw [htm]; rfl⟩
  · rintro ⟨k, t, ht, htm⟩
    have hk : k ∈ order := by
      rw [horder.mem_iff, ← AList.mem_keys, ← AList.lookup_isSome, ht]
      rfl
    exact lookupMethod_isSome hk ht htm
  · intro m hm
    obtain ⟨k, _, t, ht, htm⟩ := lookupMethod_some hm
    exact ⟨k, t, ht, htm⟩

/-- Witness for claim C16: a node with two interfaces that both have `Ping`; the
binding found depends on the order, and is one of the two. -/
theorem C16_empty_name_searches_all_interfaces_witness :
    (twoInterfaceNode.LookupInterface "" = some (.obj twoInterfaceNode) ∧
      ((twoInterfaceNode.LookupMethod ["com.example.J", "com.example.I"] "Ping").isSome = true ↔
        ∃ k t, twoInterfaceNode.interfaces.lookup k = some t ∧
          (t.LookupMethod "Ping").isSome = true) ∧
      (∀ m, twoInterfaceNode.LookupMethod ["com.example.J", "com.example.I"] "Ping" = some m →
        ∃ k t, twoInterfaceNode.interfaces.lookup k = some t ∧ t.LookupMethod "Ping" = some m) ∧
      (Interface.obj twoInterfaceNode).LookupMethod ["com.example.J", "com.example.I"] "Ping" =
        twoInterfaceNode.LookupMethod ["com.example.J", "com.example.I"] "Ping") ∧
    twoInterfaceNode.LookupMethod ["com.example.J", "com.example.I"] "Ping" =
      some ⟨.func [] [], constHandler "j"⟩ ∧
    twoInterfaceNode.LookupMethod ["com.example.I", "com.example.J"] "Ping" =
      some ⟨.func [] [], constHandler "i"⟩ ∧
    twoInterfaceNode.LookupMethod ["com.example.I", "com.example.J"] "Stop" =
      some ⟨.func [] [], constHandler "stop"⟩ ∧
    twoInterfaceNode.LookupMethod ["com.example.I", "com.example.J"] "Missing" = none :=
  ⟨C16_empty_name_searches_all_interfaces twoInterfaceNode ["com.example.J", "com.example.I"]
    "Ping" (List.Perm.swap _ _ _), rfl, rfl, rfl, rfl⟩

/-- Claim C18.  For every registry state and every path `P`: after
`DeleteObject(P)` the path `P` is not registered; every other path maps to the
node it mapped to before (registered exactly when it was before); the default
tables are unchanged; and when `P` was not registered the registry is the one
before the call. -/
theorem C18_delete_frame (h : Handler) (P : String) :
    (h.DeleteObject P).PathExists P = false ∧
    (∀ Q, Q ≠ P → (h.DeleteObject P).objects.lookup Q = h.objects.lookup Q) ∧
    (∀ Q, Q ≠ P → (h.DeleteObject P).PathExists Q = h.PathExists Q) ∧
    (h.DeleteObject P).defaultIntf = h.defaultIntf ∧
    (h.PathExists P = false → h.DeleteObject P = h) := by
  refine ⟨?_, ?_, ?_, rfl, ?_⟩
  · simp [Handler.PathExists, Handler.DeleteObject, AList.lookup_erase]
  · intro Q hQ
    exact AList.lookup_erase_ne hQ
  · intro Q hQ
    simp only [Handler.PathExists, Handler.DeleteObject]
    rw [AList.lookup_erase_ne hQ]
  · intro hP
    have hnone : h.objects.lookup P = none := by
      simp only [Handler.PathExists] at hP
      cases hl : h.objects.lookup P with
      | none => rfl
      | some o => rw [hl] at hP; simp at hP
    simp only [Handler.DeleteObject, erase_of_not_mem h.objects P hnone]

/-- Claim C15, evaluated on the code.  On a new handler `LookupObject` of the
empty string, of `name` and of `a/b` does not return: it faults with a slice
bounds panic.  More generally, for every registry state, `LookupObject` of any
unregistered string without `/` faults in this way.  The fault is the one of
the Go code, not an exhausted budget of the model. -/
theorem C15_lookup_faults_on_paths_without_slash :
    newHandler.LookupObject "" = .error .sliceBounds ∧
    newHandler.LookupObject "name" = .error .sliceBounds ∧
    newHandler.LookupObject "a/b" = .error .sliceBounds ∧
    (∀ (h : Handler) (path : String), h.objects.lookup path = none → '/' ∉ path.data →
      h.LookupObject path = .error .sliceBounds) ∧
    (∀ (h : Handler) (path : String), h.LookupObject path ≠ .error .fuel) := by
  refine ⟨rfl, rfl, rfl, ?_, LookupObject_ne_fuel⟩
  intro h path hreg hslash
  unfold Handler.LookupObject
  rw [hreg]
  simp only [cutAtLastSlash_of_not_mem hslash]

/-- Claim C17.  For every registry state and every path that begins with `/`:
`LookupObject` returns, without fault, with `found = true`; every cut at the
last `/` strictly shortens a path; the fallback loop started from the first
cut returns, and returns the same, for every budget that is at least the
length of that cut (so it terminates, within as many steps as the path has
characters); and when neither the path nor any non-empty ancestor of it is
registered, the result is the synthesized node that holds the defaults only. -/
theorem C17_lookup_returns_on_slash_led_paths (h : Handler) (path : String)
    (hs : ∃ t, path.data = '/' :: t) :
    (∃ node, h.LookupObject path = .ok (node, true)) ∧
    (∀ p shorter : String, cutAtLastSlash p = .ok shorter → shorter.length < p.length) ∧
    (∀ (shorter : String) (fuel : Nat), cutAtLastSlash path = .ok shorter →
      shorter.length ≤ fuel →
      subtreeLoop h.objects fuel shorter = subtreeLoop h.objects shorter.length shorter ∧
      ∃ m, subtreeLoop h.objects fuel shorter = .ok m) ∧
    (h.objects.lookup path = none →
      (∀ B : String, B ∈ h.objects → B ≠ "" → ¬ (B ++ "/").data <+: path.data) →
      h.LookupObject path =
        .ok (.synthesized { interfaces := mergeDefaults h.defaultIntf ∅ }, true)) := by
  obtain ⟨node, hnode⟩ := LookupObject_slashLed h path hs
  refine ⟨⟨node, hnode⟩, fun p shorter hc => cutAtLastSlash_length hc, ?_, ?_⟩
  · intro shorter fuel hcut hfuel
    refine ⟨subtreeLoop_fuel_irrelevant h.objects fuel shorter.length shorter hfuel (le_refl _), ?_⟩
    exact subtreeLoop_slashLed h.objects fuel shorter hfuel (slashLed_cut (Or.inr hs) hcut)
  · intro hreg hnone
    rcases (LookupObject_unregistered h path node true hreg hnode).2 with
      ⟨hn, _⟩ | ⟨A, oA, hA, hregA, hpre, _, _⟩
    · rw [hnode, hn]
    · exfalso
      apply hnone A (by rw [← AList.lookup_isSome, hregA]; rfl) hA
      rw [data_append_slash]
      exact hpre

/-- Witness for claim C17: the path `/x/y/z`, of which nothing is registered. -/
theorem C17_lookup_returns_on_slash_led_paths_witness :
    (∃ node, nestedState.LookupObject "/x/y/z" = .ok (node, true)) ∧
    (∀ p shorter : String, cutAtLastSlash p = .ok shorter → shorter.length < p.length) ∧
    (∀ (shorter : String) (fuel : Nat), cutAtLastSlash "/x/y/z" = .ok shorter →
      shorter.length ≤ fuel →
      subtreeLoop nestedState.objects fuel shorter =
        subtreeLoop nestedState.objects shorter.length shorter ∧
      ∃ m, subtreeLoop nestedState.objects fuel shorter = .ok m) ∧
    (nestedState.objects.lookup "/x/y/z" = none →
      (∀ B : String, B ∈ nestedState.objects → B ≠ "" →
        ¬ (B ++ "/").data <+: ("/x/y/z" : String).data) →
      nestedState.LookupObject "/x/y/z" =
        .ok (.synthesized { interfaces := mergeDefaults nestedState.defaultIntf ∅ }, true)) :=
  C17_lookup_returns_on_slash_led_paths nestedState "/x/y/z" ⟨_, rfl⟩

/-- Claim C19.  For every registry state and every path `D` that is not registered
and for which `LookupObject(D)` returns (as it does whenever `D` begins with
`/`): either no non-empty registered path `B` has `B + "/"` as a prefix of `D`
and the node holds the defaults only; or there is one registered non-empty path
`A` with `A + "/"` a prefix of `D`, no registered path with that property is
longer than `A`, and every interface of the node is either the table of a
subtree-scoped interface of `A`'s node or a default table. -/
theorem C19_fallback_uses_longest_registered_ancestor (h : Handler) (D : String)
    (node : ServerObject) (found : Bool) (hD : h.objects.lookup D = none)
    (hres : h.LookupObject D = .ok (node, found)) :
    (node.node.interfaces = mergeDefaults h.defaultIntf ∅ ∧
      (∀ B : String, B ∈ h.objects → B ≠ "" → ¬ (B ++ "/").data <+: D.data) ∧
      ∀ n t, node.node.interfaces.lookup n = some t → h.defaultIntf.lookup n = some t) ∨
    (∃ A oA, A ≠ "" ∧ h.objects.lookup A = some oA ∧ (A ++ "/").data <+: D.data ∧
      (∀ B : String, B ∈ h.objects → (B ++ "/").data <+: D.data → B.length ≤ A.length) ∧
      node.node.interfaces = mergeDefaults h.defaultIntf (copyFallback oA ∅) ∧
      ∀ n t, node.node.interfaces.lookup n = some t →
        (oA.interfaces.lookup n = some t ∧ t.includeSubtree = true) ∨
          h.defaultIntf.lookup n = some t) := by
  rcases (LookupObject_unregistered h D node found hD hres).2 with
    ⟨hn, hnone⟩ | ⟨A, oA, hA, hregA, hpre, hlong, hn⟩
  · left
    refine ⟨by rw [hn]; rfl, ?_, ?_⟩
    · intro B hB hne
      rw [data_append_slash]
      exact hnone B hB hne
    · intro n t hlook
      rw [hn] at hlook
      simp only [ServerObject.node] at hlook
      rw [lookup_mergeDefaults] at hlook
      simpa using hlook
  · right
    refine ⟨A, oA, hA, hregA, by rw [data_append_slash]; exact hpre, ?_, by rw [hn]; rfl, ?_⟩
    · intro B hB hBD
      rw [data_append_slash] at hBD
      exact hlong B hB hBD
    · intro n t hlook
      rw [hn] at hlook
      simp only [ServerObject.node] at hlook
      rw [lookup_mergeDefaults, lookup_copyFallback] at hlook
      cases ho : oA.interfaces.lookup n with
      | none =>
        rw [ho] at hlook
        exact Or.inr hlook
      | some t2 =>
        rw [ho] at hlook
        by_cases hflag : t2.includeSubtree = true
        · simp only [hflag, if_true, Option.some.injEq] at hlook
          subst hlook
          exact Or.inl ⟨rfl, hflag⟩
        · simp only [hflag, if_false] at hlook
          exact Or.inr hlook

/-- Witness for claim C19: a registration at `/ab` with a subtree-scoped interface
is not used to resolve `/abcd` (the node holds the defaults only), while it is
used to resolve `/ab/cd`. -/
theorem C19_fallback_uses_longest_registered_ancestor_witness :
    (((ServerObject.synthesized { interfaces := newHandler.defaultIntf }).node.interfaces =
        mergeDefaults abState.defaultIntf ∅ ∧
      (∀ B : String, B ∈ abState.objects → B ≠ "" →
        ¬ (B ++ "/").data <+: ("/abcd" : String).data) ∧
      ∀ n t, (ServerObject.synthesized
          { interfaces := newHandler.defaultIntf }).node.interfaces.lookup n = some t →
        abState.defaultIntf.lookup n = some t) ∨
     (∃ A oA, A ≠ "" ∧ abState.objects.lookup A = some oA ∧
      (A ++ "/").data <+: ("/abcd" : String).data ∧
      (∀ B : String, B ∈ abState.objects → (B ++ "/").data <+: ("/abcd" : String).data →
        B.length ≤ A.length) ∧
      (ServerObject.synthesized { interfaces := newHandler.defaultIntf }).node.interfaces =
        mergeDefaults abState.defaultIntf (copyFallback oA ∅) ∧
      ∀ n t, (ServerObject.synthesized
          { interfaces := newHandler.defaultIntf }).node.interfaces.lookup n = some t →
        (oA.interfaces.lookup n = some t ∧ t.includeSubtree = true) ∨
          abState.defaultIntf.lookup n = some t)) ∧
    abState.LookupObject "/abcd" =
      .ok (.synthesized { interfaces := newHandler.defaultIntf }, true) ∧
    newHandler.defaultIntf.lookup "com.example.I" = none ∧
    (∃ node, abState.LookupObject "/ab/cd" = .ok (.synthesized node, true) ∧
      node.interfaces.lookup "com.example.I" = some subtreeTable) :=
  ⟨C19_fallback_uses_longest_registered_ancestor abState "/abcd"
    (.synthesized { interfaces := newHandler.defaultIntf }) true rfl rfl, rfl, rfl, _, rfl, rfl⟩

/-- Claim C20.  In every registry state reachable from `newHandler` by `Export` and
`DeleteObject`, every interface table stored under a registered path has
`includeSubtree = false`; consequently, for every path that begins with `/` and
is not registered, `LookupObject` returns, with `found = true`, a synthesized
node whose interface map is exactly the default map of `newHandler`, whose only
entry is `org.freedesktop.DBus.Introspectable`. -/
theorem C20_reachable_states_have_no_subtree_tables (h : Handler) (hr : Reachable h) :
    (∀ p o n t, h.objects.lookup p = some o → o.interfaces.lookup n = some t →
      t.includeSubtree = false) ∧
    (∀ D : String, (∃ t, D.data = '/' :: t) → h.objects.lookup D = none →
      h.LookupObject D = .ok (.synthesized { interfaces := newHandler.defaultIntf }, true)) ∧
    h.defaultIntf = newHandler.defaultIntf ∧
    newHandler.defaultIntf.keys = [introspectableName] ∧
    newHandler.defaultIntf.lookup introspectableName = some newIntrospectIntf := by
  have hinv := reachable_invariant hr
  refine ⟨hinv.2, ?_, hinv.1, rfl, rfl⟩
  intro D hs hD
  obtain ⟨node, hnode⟩ := LookupObject_slashLed h D hs
  rcases (LookupObject_unregistered h D node true hD hnode).2 with
    ⟨hn, _⟩ | ⟨A, oA, _, hregA, _, _, hn⟩
  · rw [hnode, hn, hinv.1, mergeDefaults_newHandler_empty]
  · rw [hnode, hn, copyFallback_eq_empty oA (fun n t => hinv.2 A oA n t hregA), hinv.1,
      mergeDefaults_newHandler_empty]

/-- Witness for claim C20: the state after one `Export` at `/a`. -/
theorem C20_reachable_states_have_no_subtree_tables_witness :
    (∀ p o n t,
      (newHandler.Export (some (pingMethods (constHandler "pong"))) "/a"
        "com.example.J").1.objects.lookup p = some o →
      o.interfaces.lookup n = some t → t.includeSubtree = false) ∧
    (∀ D : String, (∃ t, D.data = '/' :: t) →
      (newHandler.Export (some (pingMethods (constHandler "pong"))) "/a"
        "com.example.J").1.objects.lookup D = none →
      (newHandler.Export (some (pingMethods (constHandler "pong"))) "/a"
        "com.example.J").1.LookupObject D =
          .ok (.synthesized { interfaces := newHandler.defaultIntf }, true)) ∧
    (newHandler.Export (some (pingMethods (constHandler "pong"))) "/a"
      "com.example.J").1.defaultIntf = newHandler.defaultIntf ∧
    newHandler.defaultIntf.keys = [introspectableName] ∧
    newHandler.defaultIntf.lookup introspectableName = some newIntrospectIntf :=
  C20_reachable_states_have_no_subtree_tables _ (Reachable.exported _ _ _ _ Reachable.init)

end Mydbus
